import Mathlib

/-!
Verification of the ticket-ninja repository core against its specification.

Shallow embedding of:
- `data-foundry/app/services/parser.py` (ContentProcessor.chunk_text)
- `data-foundry/app/services/crawler.py` (WebCrawler.crawl, _extract_links, _is_allowed)
- `shared_kb/models.py` (KnowledgeBaseEntry, to_dict / from_dict)
- `ai-gateway/app/services/vector_store.py` (VectorStore.add_entry, add_entries,
  search, get_entry)
- `ai-gateway/app/services/knowledge_base.py` (KnowledgeBaseService.search_both)

Python machine-level conventions used throughout:
- Python `None` becomes `Option`, raising an exception becomes `Except`/`Option`,
  `while` loops become fuel-indexed structural recursion.
- Similarity scores (floats in the source) are modelled as rationals: every claim
  about them concerns ordering and thresholds only.
-/

namespace TicketNinja

/-! ## ContentProcessor.chunk_text (data-foundry/app/services/parser.py)

`text.split()` in Python splits on runs of whitespace and drops empty pieces. -/

/-- Helper for `pySplit`: scan the characters, accumulating the current word
(reversed) and emitting it when whitespace or the end of the text is hit. -/
def pySplitAux : List Char → List Char → List String
  | [], acc => if acc.isEmpty then [] else [String.mk acc.reverse]
  | c :: rest, acc =>
    if c.isWhitespace then
      if acc.isEmpty then pySplitAux rest []
      else String.mk acc.reverse :: pySplitAux rest []
    else pySplitAux rest (c :: acc)

def pySplit (text : String) : List String :=
  pySplitAux text.data []

/-- The `while start < len(words)` loop of `chunk_text` (parser.py lines 28-37),
with `fuel` bounding the number of iterations; `none` models non-termination.
An iteration takes the slice `words[start:stop]` with
`stop = min(start + chunk_size, len(words))`, appends it, stops if
`stop == len(words)`, and otherwise continues from `max(stop - overlap, 0)`. -/
def chunkLoopAux (words : List String) (chunk_size overlap : Nat) :
    Nat → Nat → Option (List (List String))
  | 0, _ => none
  | fuel + 1, start =>
    if start < words.length then
      let stop := min (start + chunk_size) words.length
      let chunk := (words.drop start).take (stop - start)
      if stop = words.length then
        some [chunk]
      else
        (chunkLoopAux words chunk_size overlap fuel (max (stop - overlap) 0)).map
          (fun cs => chunk :: cs)
    else
      some []

/-- `ContentProcessor.chunk_text` at the word level: the chunks before being
re-joined with single spaces. Empty text gives `[]`; a word list no longer
than `chunk_size` gives a single chunk; otherwise the sliding-window loop runs
(with enough fuel for any terminating run). -/
def chunk_words (text : String) (chunk_size overlap : Nat) :
    Option (List (List String)) :=
  if text = "" then some []
  else
    let words := pySplit text
    if words.length ≤ chunk_size then some [words]
    else chunkLoopAux words chunk_size overlap (words.length + 1) 0

/-- `ContentProcessor.chunk_text` (parser.py lines 20-37): each chunk's words
re-joined by single spaces (`" ".join`). -/
def chunk_text (text : String) (chunk_size overlap : Nat) : Option (List String) :=
  (chunk_words text chunk_size overlap).map (fun cs => cs.map (String.intercalate " "))

/-- Concatenation of chunks where every chunk except the last loses its
trailing `overlap` words (the reconstruction operation named by the spec). -/
def reassemble (overlap : Nat) : List (List String) → List String
  | [] => []
  | [c] => c
  | c :: cs => c.take (c.length - overlap) ++ reassemble overlap cs

theorem reassemble_cons_cons (overlap : Nat) (c : List String) (cs : List String)
    (css : List (List String)) :
    reassemble overlap (c :: cs :: css) =
      c.take (c.length - overlap) ++ reassemble overlap (cs :: css) := rfl

theorem chunkLoopAux_spec (words : List String) (chunk_size overlap : Nat)
    (hov : overlap < chunk_size) :
    ∀ fuel start, start < words.length → words.length - start ≤ fuel →
      ∃ cs, chunkLoopAux words chunk_size overlap fuel start = some cs ∧
        cs ≠ [] ∧
        reassemble overlap cs = words.drop start ∧
        ∀ c ∈ cs, c.length ≤ chunk_size := by
  intro fuel
  induction fuel with
  | zero => intro start hs hf; omega
  | succ fuel ih =>
    intro start hs hf
    by_cases hstop : min (start + chunk_size) words.length = words.length
    · refine ⟨[(words.drop start).take (min (start + chunk_size) words.length - start)],
        ?_, by simp, ?_, ?_⟩
      · simp only [chunkLoopAux, if_pos hs, if_pos hstop]
      · show (words.drop start).take (min (start + chunk_size) words.length - start) =
          words.drop start
        rw [hstop]
        apply List.take_of_length_le
        simp
      · intro c hc
        simp only [List.mem_singleton] at hc
        subst hc
        simp only [List.length_take, List.length_drop]
        omega
    · have hlt : start + chunk_size < words.length := by omega
      have hstop' : min (start + chunk_size) words.length = start + chunk_size := by omega
      have hnext : max (min (start + chunk_size) words.length - overlap) 0 =
          start + (chunk_size - overlap) := by omega
      have hnext_lt : start + (chunk_size - overlap) < words.length := by omega
      have hnext_fuel : words.length - (start + (chunk_size - overlap)) ≤ fuel := by omega
      obtain ⟨cs, hcs, hne, hre, hlen⟩ := ih (start + (chunk_size - overlap)) hnext_lt hnext_fuel
      refine ⟨(words.drop start).take (min (start + chunk_size) words.length - start) :: cs,
        ?_, by simp, ?_, ?_⟩
      · simp only [chunkLoopAux, if_pos hs, if_neg hstop, hnext, hcs]
        rfl
      · have hchunklen : ((words.drop start).take (min (start + chunk_size) words.length
            - start)).length = chunk_size := by
          simp only [List.length_take, List.length_drop]
          omega
        obtain ⟨c₀, cs', rfl⟩ : ∃ c₀ cs', cs = c₀ :: cs' := by
          cases cs with
          | nil => exact absurd rfl hne
          | cons c₀ cs' => exact ⟨c₀, cs', rfl⟩
        rw [reassemble_cons_cons, hchunklen, hre, hstop']
        have htt : ((words.drop start).take (start + chunk_size - start)).take
            (chunk_size - overlap) = (words.drop start).take (chunk_size - overlap) := by
          rw [List.take_take]
          congr 1
          omega
        rw [htt]
        have hdd : words.drop (start + (chunk_size - overlap)) =
            (words.drop start).drop (chunk_size - overlap) := by
          rw [List.drop_drop]
        rw [hdd, List.take_append_drop]
      · intro c hc
        rcases List.mem_cons.mp hc with h | h
        · subst h
          simp only [List.length_take, List.length_drop]
          omega
        · exact hlen c h

/-- Claim C1: for every non-empty text, every `chunk_size > 0` and every
`overlap` with `0 ≤ overlap < chunk_size`, the chunk list returned by
`ContentProcessor.chunk_text` has every chunk containing at most `chunk_size`
words, and concatenating, in order, each chunk with its trailing `overlap`
words removed (the last chunk kept whole) yields exactly the word sequence
of the input text. -/
theorem chunk_text_reconstruction (text : String) (chunk_size overlap : Nat)
    (htext : text ≠ "") (_hpos : 0 < chunk_size) (hov : overlap < chunk_size) :
    ∃ cs, chunk_words text chunk_size overlap = some cs ∧
      chunk_text text chunk_size overlap = some (cs.map (String.intercalate " ")) ∧
      (∀ c ∈ cs, c.length ≤ chunk_size) ∧
      reassemble overlap cs = pySplit text := by
  by_cases hsmall : (pySplit text).length ≤ chunk_size
  · refine ⟨[pySplit text], ?_, ?_, ?_, rfl⟩
    · simp only [chunk_words, if_neg htext, if_pos hsmall]
    · simp only [chunk_text, chunk_words, if_neg htext, if_pos hsmall]
      rfl
    · intro c hc
      simp only [List.mem_singleton] at hc
      subst hc
      exact hsmall
  · have hlen : 0 < (pySplit text).length := by omega
    obtain ⟨cs, hcs', hne, hre, hl⟩ := chunkLoopAux_spec (pySplit text) chunk_size overlap hov
      ((pySplit text).length + 1) 0 hlen (by omega)
    refine ⟨cs, ?_, ?_, hl, by simpa using hre⟩
    · simp only [chunk_words, if_neg htext, if_neg hsmall]
      exact hcs'
    · simp only [chunk_text, chunk_words, if_neg htext, if_neg hsmall, hcs']
      rfl

/-- Witness for C1 at the spec scenario text with chunk_size 3, overlap 1. -/
theorem chunk_text_reconstruction_witness :
    ∃ cs, chunk_words "a b c d e f g h" 3 1 = some cs ∧
      chunk_text "a b c d e f g h" 3 1 = some (cs.map (String.intercalate " ")) ∧
      (∀ c ∈ cs, c.length ≤ 3) ∧
      reassemble 1 cs = pySplit "a b c d e f g h" :=
  chunk_text_reconstruction "a b c d e f g h" 3 1 (by decide) (by decide) (by decide)

/-- Claim C9: for every text and every `chunk_size > 0`, `0 ≤ overlap <
chunk_size`, `ContentProcessor.chunk_text` terminates: the loop returns within
`len(words) + 1` iterations, and whenever the window end has not yet reached
the end of the word sequence, the next start position
`max(min(start + chunk_size, len) - overlap, 0)` is exactly
`start + (chunk_size - overlap)`, strictly greater than `start`. -/
theorem chunk_text_terminates (text : String) (chunk_size overlap : Nat)
    (hov : overlap < chunk_size) :
    (chunk_text text chunk_size overlap).isSome ∧
    ∀ start, start + chunk_size < (pySplit text).length →
      max (min (start + chunk_size) (pySplit text).length - overlap) 0 =
          start + (chunk_size - overlap) ∧
        start < max (min (start + chunk_size) (pySplit text).length - overlap) 0 := by
  constructor
  · by_cases htext : text = ""
    · simp [chunk_text, chunk_words, htext]
    · by_cases hsmall : (pySplit text).length ≤ chunk_size
      · simp [chunk_text, chunk_words, htext, hsmall]
      · obtain ⟨cs, hcs, _, _, _⟩ := chunkLoopAux_spec (pySplit text) chunk_size overlap hov
          ((pySplit text).length + 1) 0 (by omega) (by omega)
        simp [chunk_text, chunk_words, htext, hsmall, hcs]
  · intro start hlt
    omega

/-- Witness for C9 at chunk_size 3, overlap 1. -/
theorem chunk_text_terminates_witness :
    (chunk_text "a b c d e f g h" 3 1).isSome ∧
    ∀ start, start + 3 < (pySplit "a b c d e f g h").length →
      max (min (start + 3) (pySplit "a b c d e f g h").length - 1) 0 = start + (3 - 1) ∧
        start < max (min (start + 3) (pySplit "a b c d e f g h").length - 1) 0 :=
  chunk_text_terminates "a b c d e f g h" 3 1 (by decide)

/-- The spec's concrete scenario:
`chunk_text("a b c d e f g h", chunk_size=3, overlap=1)`. -/
theorem chunk_text_scenario :
    chunk_text "a b c d e f g h" 3 1 = some ["a b c", "c d e", "e f g", "g h"] := by
  decide

/-! ## WebCrawler (data-foundry/app/services/crawler.py)

The network, URL parsing and HTML parsing are external collaborators, so they
enter the embedding as parameters (`CrawlEnv`): `fetch` models
`httpx.AsyncClient.get` (exception or a response with status code,
content-type header and body text), `parseTitle`/`parseAnchors` model what
BeautifulSoup extracts from a body (`soup.title` and the `href` values of
`soup.find_all("a", href=True)`), and `urljoin`/`netloc` model
`urllib.parse.urljoin` / `urlparse(url).netloc`. -/

/-- `pre` is a prefix of the second list (string helpers are implemented on
character lists so that they evaluate by kernel reduction). -/
def listStartsWith : List Char → List Char → Bool
  | [], _ => true
  | _ :: _, [] => false
  | a :: as, b :: bs => a = b && listStartsWith as bs

/-- Python `s.startswith(pre)`. -/
def strStartsWith (s pre : String) : Bool :=
  listStartsWith pre.data s.data

/-- Python `s.endswith(suf)`. -/
def strEndsWith (s suf : String) : Bool :=
  listStartsWith suf.data.reverse s.data.reverse

/-- Python `s.lower()` (ASCII case folding suffices for hostname comparison). -/
def strLower (s : String) : String :=
  String.mk (s.data.map Char.toLower)

def containsSubstrAux (pat : List Char) : List Char → Bool
  | [] => pat.isEmpty
  | c :: rest => listStartsWith pat (c :: rest) || containsSubstrAux pat rest

/-- Python `pat in s` substring membership. -/
def containsSubstr (s pat : String) : Bool :=
  containsSubstrAux pat.data s.data

/-- Outcome of `client.get(url)`: a raised exception, or a response. -/
inductive FetchOutcome where
  | failure (msg : String)
  | success (status : Nat) (contentType : String) (text : String)

structure CrawlEnv where
  fetch : String → FetchOutcome
  parseTitle : String → Option String
  parseAnchors : String → List String
  urljoin : String → String → String
  netloc : String → String

/-- `CrawledPage` (crawler.py lines 10-15). -/
structure CrawledPage where
  url : String
  html : String
  title : String
  depth : Nat
deriving DecidableEq

/-- The mutable state of `WebCrawler.crawl`, plus a ghost log (`fetchLog`) of
every URL passed to `client.get`, newest first. -/
structure CrawlState where
  visited : List String
  errors : List String
  pages : List CrawledPage
  queue : List (String × Nat)
  fetchLog : List String
deriving DecidableEq

/-- `absolute.split("#")[0]`: the prefix of the URL before the first `#`. -/
def stripFragment (url : String) : String :=
  String.mk (url.data.takeWhile (fun c => c ≠ '#'))

/-- `WebCrawler._is_allowed` (crawler.py lines 100-109). -/
def is_allowed (netloc : String → String) (url : String) (allowed_domains : List String)
    (include_subdomains : Bool) : Bool :=
  let hostname := netloc url
  if hostname = "" then false
  else
    let h := strLower hostname
    if include_subdomains then
      allowed_domains.any (fun domain => h = domain || strEndsWith h ("." ++ domain))
    else
      allowed_domains.contains h

/-- `WebCrawler._extract_links` (crawler.py lines 88-98): keep non-empty hrefs
that are not fragment-only, `mailto:` or `javascript:` targets, resolve each
against the page URL and strip any fragment. -/
def extract_links (env : CrawlEnv) (anchors : List String) (base_url : String) :
    List String :=
  (anchors.filter (fun href =>
      ¬(href = "" || strStartsWith href "#" || strStartsWith href "mailto:"
        || strStartsWith href "javascript:"))).map
    (fun href => stripFragment (env.urljoin base_url href))

/-- One-shot embedding of the `while queue and len(pages) < max_pages` loop of
`WebCrawler.crawl` (crawler.py lines 49-84); `fuel` bounds the number of
iterations, and running out of fuel returns the state reached so far (every
theorem below quantifies over `fuel`, so only safety properties are claimed). -/
def crawlLoop (env : CrawlEnv) (max_depth max_pages : Nat) (allowed_domains : List String)
    (include_subdomains skip_assets : Bool) : Nat → CrawlState → CrawlState
  | 0, s => s
  | fuel + 1, s =>
    if s.pages.length < max_pages then
      match s.queue with
      | [] => s
      | (url, depth) :: rest =>
        let s₁ := { s with queue := rest }
        if url ∈ s₁.visited ∨ max_depth < depth then
          crawlLoop env max_depth max_pages allowed_domains include_subdomains skip_assets fuel s₁
        else
          let s₂ := { s₁ with visited := url :: s₁.visited }
          if is_allowed env.netloc url allowed_domains include_subdomains = false then
            crawlLoop env max_depth max_pages allowed_domains include_subdomains skip_assets fuel s₂
          else
            let s₃ := { s₂ with fetchLog := url :: s₂.fetchLog }
            match env.fetch url with
            | .failure msg =>
              crawlLoop env max_depth max_pages allowed_domains include_subdomains skip_assets fuel
                { s₃ with errors := s₃.errors ++ ["Failed to fetch " ++ url ++ ": " ++ msg] }
            | .success status contentType text =>
              if 400 ≤ status then
                crawlLoop env max_depth max_pages allowed_domains include_subdomains skip_assets fuel
                  { s₃ with errors := s₃.errors ++ [url ++ " returned " ++ toString status] }
              else if skip_assets = true ∧ (containsSubstr contentType "html" ||
                  containsSubstr contentType "xml") = false then
                crawlLoop env max_depth max_pages allowed_domains include_subdomains skip_assets fuel s₃
              else
                let title := (env.parseTitle text).getD url
                let s₄ := { s₃ with pages := s₃.pages ++ [⟨url, text, title, depth⟩] }
                let s₅ :=
                  if depth < max_depth then
                    { s₄ with queue := s₄.queue ++
                      (((extract_links env (env.parseAnchors text) url).filter
                        (fun link => !(s₄.visited.contains link) &&
                          is_allowed env.netloc link allowed_domains include_subdomains)).map
                        (fun link => (link, depth + 1))) }
                  else s₄
                crawlLoop env max_depth max_pages allowed_domains include_subdomains skip_assets fuel s₅
    else s

/-- `set(allowed_domains or [base_domain])` (crawler.py line 44): Python `or`
falls back to the root hostname when `allowed_domains` is `None` or empty. -/
def crawlAllowed (env : CrawlEnv) (root_url : String)
    (allowed_domains : Option (List String)) : List String :=
  match allowed_domains with
  | none => [env.netloc root_url]
  | some [] => [env.netloc root_url]
  | some l => l

/-- `WebCrawler.crawl` (crawler.py lines 28-86). -/
def WebCrawler.crawl (env : CrawlEnv) (root_url : String) (max_depth max_pages : Nat)
    (allowed_domains : Option (List String)) (include_subdomains skip_assets : Bool)
    (fuel : Nat) : CrawlState :=
  crawlLoop env max_depth max_pages (crawlAllowed env root_url allowed_domains)
    include_subdomains skip_assets fuel
    { visited := [], errors := [], pages := [], queue := [(root_url, 0)], fetchLog := [] }

/-- The safety invariant of the crawl loop: no URL string fetched twice, every
fetched URL already recorded as visited and admitted by the domain filter, the
page list within the `max_pages` budget, every queued or returned page within
the `max_depth` bound, and every returned page actually fetched. -/
structure CrawlInv (max_depth max_pages : Nat) (netloc : String → String)
    (allowed : List String) (incl : Bool) (s : CrawlState) : Prop where
  nodupLog : s.fetchLog.Nodup
  logVisited : ∀ u ∈ s.fetchLog, u ∈ s.visited
  pagesBound : s.pages.length ≤ max_pages
  queueDepth : ∀ p ∈ s.queue, p.2 ≤ max_depth
  pagesDepth : ∀ p ∈ s.pages, p.depth ≤ max_depth
  pagesFetched : ∀ p ∈ s.pages, p.url ∈ s.fetchLog
  logAllowed : ∀ u ∈ s.fetchLog, is_allowed netloc u allowed incl = true

theorem crawlLoop_inv (env : CrawlEnv) (max_depth max_pages : Nat)
    (allowed : List String) (incl skip : Bool) :
    ∀ fuel s, CrawlInv max_depth max_pages env.netloc allowed incl s →
      CrawlInv max_depth max_pages env.netloc allowed incl
        (crawlLoop env max_depth max_pages allowed incl skip fuel s) := by
  intro fuel
  induction fuel with
  | zero => intro s h; exact h
  | succ fuel ih =>
    intro s h
    rw [crawlLoop]
    by_cases hpages : s.pages.length < max_pages
    case neg => rw [if_neg hpages]; exact h
    rw [if_pos hpages]
    cases hq : s.queue with
    | nil => exact h
    | cons ud rest =>
      obtain ⟨url, depth⟩ := ud
      have hqdep : depth ≤ max_depth :=
        h.queueDepth (url, depth) (by rw [hq]; exact List.mem_cons_self _ _)
      have hqrest : ∀ p ∈ rest, p.2 ≤ max_depth := fun p hp =>
        h.queueDepth p (by rw [hq]; exact List.mem_cons_of_mem _ hp)
      have h₁ : CrawlInv max_depth max_pages env.netloc allowed incl { s with queue := rest } :=
        ⟨h.nodupLog, h.logVisited, h.pagesBound, hqrest, h.pagesDepth, h.pagesFetched,
          h.logAllowed⟩
      dsimp only
      by_cases hvis : url ∈ s.visited ∨ max_depth < depth
      · rw [if_pos hvis]
        exact ih _ h₁
      · rw [if_neg hvis]
        push_neg at hvis
        have h₂ : CrawlInv max_depth max_pages env.netloc allowed incl
            { s with queue := rest, visited := url :: s.visited } :=
          ⟨h₁.nodupLog, fun u hu => List.mem_cons_of_mem _ (h₁.logVisited u hu),
            h₁.pagesBound, h₁.queueDepth, h₁.pagesDepth, h₁.pagesFetched, h₁.logAllowed⟩
        by_cases hallow : is_allowed env.netloc url allowed incl = false
        · rw [if_pos hallow]
          exact ih _ h₂
        · rw [if_neg hallow]
          have hallow' : is_allowed env.netloc url allowed incl = true := by
            cases hb : is_allowed env.netloc url allowed incl
            · exact absurd hb hallow
            · rfl
          have hnotlog : url ∉ s.fetchLog := fun hin => hvis.1 (h.logVisited url hin)
          have h₃ : CrawlInv max_depth max_pages env.netloc allowed incl
              { s with
                queue := rest,
                visited := url :: s.visited,
                fetchLog := url :: s.fetchLog } := by
            refine ⟨List.nodup_cons.mpr ⟨hnotlog, h₂.nodupLog⟩, ?_, h₂.pagesBound,
              h₂.queueDepth, h₂.pagesDepth,
              fun p hp => List.mem_cons_of_mem _ (h₂.pagesFetched p hp), ?_⟩
            · intro u hu
              rcases List.mem_cons.mp hu with rfl | hu
              · exact List.mem_cons_self _ _
              · exact List.mem_cons_of_mem _ (h.logVisited u hu)
            · intro u hu
              rcases List.mem_cons.mp hu with rfl | hu
              · exact hallow'
              · exact h.logAllowed u hu
          cases hf : env.fetch url with
          | failure msg =>
            exact ih _ ⟨h₃.nodupLog, h₃.logVisited, h₃.pagesBound, h₃.queueDepth,
              h₃.pagesDepth, h₃.pagesFetched, h₃.logAllowed⟩
          | success status contentType text =>
            dsimp only
            by_cases hst : 400 ≤ status
            · rw [if_pos hst]
              exact ih _ ⟨h₃.nodupLog, h₃.logVisited, h₃.pagesBound, h₃.queueDepth,
                h₃.pagesDepth, h₃.pagesFetched, h₃.logAllowed⟩
            · rw [if_neg hst]
              by_cases hasset : skip = true ∧ (containsSubstr contentType "html" ||
                  containsSubstr contentType "xml") = false
              · rw [if_pos hasset]
                exact ih _ h₃
              · rw [if_neg hasset]
                have h₄ : CrawlInv max_depth max_pages env.netloc allowed incl
                    { s with
                      queue := rest,
                      visited := url :: s.visited,
                      fetchLog := url :: s.fetchLog,
                      pages := s.pages ++
                        [⟨url, text, ((env.parseTitle text).getD url), depth⟩] } := by
                  refine ⟨h₃.nodupLog, h₃.logVisited, ?_, h₃.queueDepth, ?_, ?_,
                    h₃.logAllowed⟩
                  · simp only [List.length_append, List.length_singleton]
                    omega
                  · intro p hp
                    rcases List.mem_append.mp hp with hp | hp
                    · exact h.pagesDepth p hp
                    · simp only [List.mem_singleton] at hp
                      subst hp
                      exact hqdep
                  · intro p hp
                    rcases List.mem_append.mp hp with hp | hp
                    · exact List.mem_cons_of_mem _ (h.pagesFetched p hp)
                    · simp only [List.mem_singleton] at hp
                      subst hp
                      exact List.mem_cons_self _ _
                by_cases hdepth : depth < max_depth
                · rw [if_pos hdepth]
                  refine ih _ ⟨h₄.nodupLog, h₄.logVisited, h₄.pagesBound, ?_,
                    h₄.pagesDepth, h₄.pagesFetched, h₄.logAllowed⟩
                  intro p hp
                  rcases List.mem_append.mp hp with hp | hp
                  · exact hqrest p hp
                  · obtain ⟨link, _, rfl⟩ := List.mem_map.mp hp
                    omega
                · rw [if_neg hdepth]
                  exact ih _ h₄

theorem crawl_CrawlInv (env : CrawlEnv) (root_url : String) (max_depth max_pages : Nat)
    (allowed_domains : Option (List String)) (incl skip : Bool) (fuel : Nat) :
    CrawlInv max_depth max_pages env.netloc (crawlAllowed env root_url allowed_domains) incl
      (WebCrawler.crawl env root_url max_depth max_pages allowed_domains incl skip fuel) := by
  apply crawlLoop_inv
  refine ⟨List.nodup_nil, fun u hu => absurd hu (List.not_mem_nil u), Nat.zero_le _, ?_,
    fun p hp => absurd hp (List.not_mem_nil p), fun p hp => absurd hp (List.not_mem_nil p),
    fun u hu => absurd hu (List.not_mem_nil u)⟩
  intro p hp
  simp only [List.mem_singleton] at hp
  subst hp
  exact Nat.zero_le _

/-- Claim C2 (amended): for every root_url, max_depth ≥ 0, max_pages ≥ 1 and
every link graph (including cyclic ones), `WebCrawler.crawl` fetches each URL
string at most once, returns a pages list of length at most max_pages, and
fetches pages reached at depth equal to max_depth without enqueueing any of
their links (every frontier entry stays at depth ≤ max_depth and every
returned page was fetched at depth ≤ max_depth). The original claim spoke of
fragment-stripped URLs: that holds for the enqueued links (which are
fragment-stripped by `_extract_links`) but not for the root URL, which enters
the frontier verbatim — see the counterexample. -/
theorem crawl_safety (env : CrawlEnv) (root_url : String) (max_depth max_pages : Nat)
    (allowed_domains : Option (List String)) (incl skip : Bool) (fuel : Nat)
    (_hmp : 1 ≤ max_pages) :
    (WebCrawler.crawl env root_url max_depth max_pages allowed_domains incl skip
        fuel).fetchLog.Nodup ∧
    (WebCrawler.crawl env root_url max_depth max_pages allowed_domains incl skip
        fuel).pages.length ≤ max_pages ∧
    (∀ p ∈ (WebCrawler.crawl env root_url max_depth max_pages allowed_domains incl skip
        fuel).pages,
      p.depth ≤ max_depth ∧
        p.url ∈ (WebCrawler.crawl env root_url max_depth max_pages allowed_domains incl skip
          fuel).fetchLog) ∧
    ∀ q ∈ (WebCrawler.crawl env root_url max_depth max_pages allowed_domains incl skip
        fuel).queue,
      q.2 ≤ max_depth := by
  have h := crawl_CrawlInv env root_url max_depth max_pages allowed_domains incl skip fuel
  exact ⟨h.nodupLog, h.pagesBound,
    fun p hp => ⟨h.pagesDepth p hp, h.pagesFetched p hp⟩, h.queueDepth⟩

/-- Concrete two-page site whose root URL carries a fragment: the root page
links to the fragment-stripped form of its own URL. -/
def fragEnv : CrawlEnv where
  fetch := fun u =>
    if u = "http://a#f" then .success 200 "text/html" "rootpage"
    else if u = "http://a" then .success 200 "text/html" "leafpage"
    else .failure "unreachable"
  parseTitle := fun _ => none
  parseAnchors := fun t => if t = "rootpage" then ["http://a"] else []
  urljoin := fun _ href => href
  netloc := fun u => if u = "http://a#f" then "a" else if u = "http://a" then "a" else ""

/-- Counterexample to claim C2 as stated: with root URL `http://a#f` the
crawler fetches both `http://a#f` and `http://a`, two URLs with the same
fragment-stripped form, so some fragment-stripped URL is fetched twice. -/
theorem crawl_fragment_stripped_refetch :
    ¬ ((WebCrawler.crawl fragEnv "http://a#f" 1 2 none true true 10).fetchLog.map
        stripFragment).Nodup := by
  decide

/-- Witness for C2 (amended) on the concrete two-page site. -/
theorem crawl_safety_witness :
    (WebCrawler.crawl fragEnv "http://a#f" 1 2 none true true 10).fetchLog.Nodup ∧
    (WebCrawler.crawl fragEnv "http://a#f" 1 2 none true true 10).pages.length ≤ 2 ∧
    (∀ p ∈ (WebCrawler.crawl fragEnv "http://a#f" 1 2 none true true 10).pages,
      p.depth ≤ 1 ∧
        p.url ∈ (WebCrawler.crawl fragEnv "http://a#f" 1 2 none true true 10).fetchLog) ∧
    ∀ q ∈ (WebCrawler.crawl fragEnv "http://a#f" 1 2 none true true 10).queue, q.2 ≤ 1 :=
  crawl_safety fragEnv "http://a#f" 1 2 none true true 10 (by decide)

theorem is_allowed_singleton (netloc : String → String) (u base : String) (incl : Bool)
    (hall : is_allowed netloc u [base] incl = true) :
    strLower (netloc u) = base ∨
      (incl = true ∧ strEndsWith (strLower (netloc u)) ("." ++ base) = true) := by
  unfold is_allowed at hall
  by_cases hh : netloc u = ""
  · rw [if_pos hh] at hall
    exact absurd hall (by simp)
  · rw [if_neg hh] at hall
    cases incl with
    | false =>
      simp only [Bool.false_eq_true, if_false, List.contains_cons, List.contains_nil,
        Bool.or_false, beq_iff_eq] at hall
      exact Or.inl hall
    | true =>
      simp only [if_true, List.any_cons, List.any_nil, Bool.or_false, Bool.or_eq_true,
        decide_eq_true_eq] at hall
      rcases hall with hall | hall
      · exact Or.inl hall
      · exact Or.inr ⟨rfl, hall⟩

/-- Claim C7: for every crawl invoked with `allowed_domains` unset (`None`),
every fetched URL — hence every page in the returned list — has a hostname
equal (after lower-casing, as `_is_allowed` compares) to the root URL's
hostname, or, when `include_subdomains` is true, ending in `"." ++` that
hostname (a proper subdomain); no URL outside that set is ever fetched. -/
theorem crawl_default_domains (env : CrawlEnv) (root_url : String)
    (max_depth max_pages : Nat) (incl skip : Bool) (fuel : Nat) :
    (∀ p ∈ (WebCrawler.crawl env root_url max_depth max_pages none incl skip fuel).pages,
      p.url ∈ (WebCrawler.crawl env root_url max_depth max_pages none incl skip fuel).fetchLog) ∧
    ∀ u ∈ (WebCrawler.crawl env root_url max_depth max_pages none incl skip fuel).fetchLog,
      strLower (env.netloc u) = env.netloc root_url ∨
        (incl = true ∧
          strEndsWith (strLower (env.netloc u)) ("." ++ env.netloc root_url) = true) := by
  have h := crawl_CrawlInv env root_url max_depth max_pages none incl skip fuel
  refine ⟨h.pagesFetched, fun u hu => ?_⟩
  exact is_allowed_singleton env.netloc u (env.netloc root_url) incl (h.logAllowed u hu)

/-! ## Knowledge-base data model (shared_kb/models.py)

The gateway services import `app.models.knowledge_base`, whose file is not in
the repository snapshot; `shared_kb/models.py` is its in-repo sibling and the
claims cite it for serialization. Per spec §3 the gateway model's `category`
is required for the SHARED tier and optional/ignored for TENANT (the
validation in `add_entry` checks exactly that), so `category` is
`Option`-valued here; the `shared_kb` copy differs only in making it
required. -/

inductive KnowledgeBaseType where
  | COMMON
  | TENANT
deriving DecidableEq

def KnowledgeBaseType.value : KnowledgeBaseType → String
  | .COMMON => "common"
  | .TENANT => "tenant"

/-- `KnowledgeBaseType(value)`: enum lookup by value, `none` models the raised
`ValueError` for an unknown value. -/
def KnowledgeBaseType.ofValue (s : String) : Option KnowledgeBaseType :=
  if s = "common" then some .COMMON
  else if s = "tenant" then some .TENANT
  else none

inductive ITIssueCategory where
  | DATABASE
  | KUBERNETES
  | CLOUD_INFRA
  | CI_CD
  | NETWORK
  | SECURITY
  | APPLICATION
  | OBSERVABILITY
  | STORAGE
  | OTHER
deriving DecidableEq

def ITIssueCategory.value : ITIssueCategory → String
  | .DATABASE => "database"
  | .KUBERNETES => "kubernetes"
  | .CLOUD_INFRA => "cloud_infrastructure"
  | .CI_CD => "ci_cd"
  | .NETWORK => "network"
  | .SECURITY => "security"
  | .APPLICATION => "application"
  | .OBSERVABILITY => "observability"
  | .STORAGE => "storage"
  | .OTHER => "other"

/-- Iteration order of `for cat in ITIssueCategory`: definition order. -/
def ITIssueCategory.all : List ITIssueCategory :=
  [.DATABASE, .KUBERNETES, .CLOUD_INFRA, .CI_CD, .NETWORK, .SECURITY, .APPLICATION,
    .OBSERVABILITY, .STORAGE, .OTHER]

/-- `ITIssueCategory(value)`: enum lookup by value, `none` models the raised
`ValueError`. -/
def ITIssueCategory.ofValue (s : String) : Option ITIssueCategory :=
  ITIssueCategory.all.find? (fun c => c.value = s)

/-- Python `datetime` values enter the model only through `isoformat` and
`fromisoformat`, so a value is represented by its ISO string (`isoformat` of a
real datetime is never empty; theorems that need this carry it as a
hypothesis). -/
structure Datetime where
  iso : String
deriving DecidableEq

def Datetime.isoformat (d : Datetime) : String := d.iso

def Datetime.fromisoformat (s : String) : Datetime := ⟨s⟩

/-- `KnowledgeBaseEntry` (shared_kb/models.py lines 27-51). -/
structure KnowledgeBaseEntry where
  id : Option String
  tenant_id : Option String
  kb_type : KnowledgeBaseType
  title : String
  phenomenon : String
  root_cause_analysis : String
  solutions : List String
  category : Option ITIssueCategory
  tags : List String
  created_at : Option Datetime
  updated_at : Option Datetime
  source_url : Option String
  source_type : Option String
  ticket_key : Option String
  ticket_id : Option String
deriving DecidableEq

/-- The dictionary produced by `KnowledgeBaseEntry.to_dict` (its key set is
fixed, so the dict is modelled as a record of the values). -/
structure EntryDict where
  id : Option String
  tenant_id : Option String
  kb_type : String
  title : String
  phenomenon : String
  root_cause_analysis : String
  solutions : List String
  category : Option String
  tags : List String
  created_at : Option String
  updated_at : Option String
  source_url : Option String
  source_type : Option String
  ticket_key : Option String
  ticket_id : Option String
deriving DecidableEq

/-- `KnowledgeBaseEntry.to_dict` (shared_kb/models.py lines 66-84). -/
def KnowledgeBaseEntry.to_dict (e : KnowledgeBaseEntry) : EntryDict where
  id := e.id
  tenant_id := e.tenant_id
  kb_type := e.kb_type.value
  title := e.title
  phenomenon := e.phenomenon
  root_cause_analysis := e.root_cause_analysis
  solutions := e.solutions
  category := e.category.map ITIssueCategory.value
  tags := e.tags
  created_at := e.created_at.map Datetime.isoformat
  updated_at := e.updated_at.map Datetime.isoformat
  source_url := e.source_url
  source_type := e.source_type
  ticket_key := e.ticket_key
  ticket_id := e.ticket_id

/-- `if "created_at" in data and data["created_at"]: ... fromisoformat(...)`:
absent or `None` stays `None`; the empty string (falsy) is left unparsed and
then rejected by the model's datetime field validation (outer `none`); a
non-empty string parses. -/
def parseTimestamp : Option String → Option (Option Datetime)
  | none => some none
  | some s => if s = "" then none else some (some (Datetime.fromisoformat s))

/-- `data["category"]` handling in `from_dict`: a present value must be a
known category value; an absent value stays absent (the gateway model's
`category` is optional, see the section comment). -/
def parseCategoryField : Option String → Option (Option ITIssueCategory)
  | none => some none
  | some s => (ITIssueCategory.ofValue s).map some

/-- `KnowledgeBaseEntry.from_dict` (shared_kb/models.py lines 86-96): parse
the timestamps when present and truthy, re-parse the enum fields, rebuild the
model; `none` models any raised validation error. -/
def KnowledgeBaseEntry.from_dict (d : EntryDict) : Option KnowledgeBaseEntry := do
  let created ← parseTimestamp d.created_at
  let updated ← parseTimestamp d.updated_at
  let kt ← KnowledgeBaseType.ofValue d.kb_type
  let cat ← parseCategoryField d.category
  some
    { id := d.id, tenant_id := d.tenant_id, kb_type := kt, title := d.title,
      phenomenon := d.phenomenon, root_cause_analysis := d.root_cause_analysis,
      solutions := d.solutions, category := cat, tags := d.tags, created_at := created,
      updated_at := updated, source_url := d.source_url, source_type := d.source_type,
      ticket_key := d.ticket_key, ticket_id := d.ticket_id }

theorem kbType_ofValue_value (t : KnowledgeBaseType) :
    KnowledgeBaseType.ofValue t.value = some t := by
  cases t <;> rfl

theorem category_ofValue_value (c : ITIssueCategory) :
    ITIssueCategory.ofValue c.value = some c := by
  cases c <;> rfl

theorem parseTimestamp_roundTrip (od : Option Datetime) (h : ∀ d ∈ od, d.iso ≠ "") :
    parseTimestamp (od.map Datetime.isoformat) = some od := by
  cases od with
  | none => rfl
  | some d =>
    have hne : d.iso ≠ "" := h d rfl
    show parseTimestamp (some (Datetime.isoformat d)) = some (some d)
    simp only [parseTimestamp, Datetime.isoformat, if_neg hne]
    rfl

/-- Serialization round-trip: `from_dict (to_dict e) = e` whenever the
timestamps carry non-empty ISO strings (always true of real datetimes). -/
theorem from_dict_to_dict (e : KnowledgeBaseEntry)
    (hc : ∀ d ∈ e.created_at, d.iso ≠ "") (hu : ∀ d ∈ e.updated_at, d.iso ≠ "") :
    KnowledgeBaseEntry.from_dict e.to_dict = some e := by
  unfold KnowledgeBaseEntry.from_dict KnowledgeBaseEntry.to_dict
  rw [parseTimestamp_roundTrip e.created_at hc, parseTimestamp_roundTrip e.updated_at hu]
  rw [show KnowledgeBaseType.ofValue e.kb_type.value = some e.kb_type from
    kbType_ofValue_value e.kb_type]
  have hcat : parseCategoryField (e.category.map ITIssueCategory.value) = some e.category := by
    cases hec : e.category with
    | none => rfl
    | some c =>
      show parseCategoryField (some c.value) = some (some c)
      simp only [parseCategoryField, category_ofValue_value]
      rfl
  rw [hcat]
  rfl

/-! ## VectorStore (ai-gateway/app/services/vector_store.py)

The Qdrant backend is modelled as an association list from collection name to
point list (a point is an id paired with its stored payload); the vectors and
the embedding model do not influence any claim about stored payloads, so they
are not represented. -/

abbrev PointList := List (String × EntryDict)

abbrev Store := List (String × PointList)

/-- `COMMON_COLLECTION_PREFIX + category.value` (vector_store.py line 47). -/
def commonCollectionName (cat : ITIssueCategory) : String :=
  "kb_common_" ++ cat.value

/-- `TENANT_COLLECTION_PREFIX + tenant_id` (vector_store.py line 51). -/
def tenantCollectionName (tid : String) : String :=
  "kb_tenant_" ++ tid

def collectionNames (store : Store) : List String :=
  store.map Prod.fst

/-- `VectorStore._ensure_collection` (vector_store.py lines 53-72): create the
collection when absent, otherwise a no-op. -/
def ensureCollection (store : Store) (name : String) : Store :=
  if (collectionNames store).contains name then store else store ++ [(name, [])]

/-- Upsert one point into a point list: replace the point with the same id in
place, or append. -/
def upsertPoint (pts : PointList) (p : String × EntryDict) : PointList :=
  if pts.any (fun q => q.1 = p.1) then pts.map (fun q => if q.1 = p.1 then p else q)
  else pts ++ [p]

/-- `client.upsert(collection_name, points)`: upsert each point by id into the
named collection (every call site ensures the collection exists first). -/
def upsertPoints (store : Store) (name : String) (ps : List (String × EntryDict)) : Store :=
  store.map (fun c => if c.1 = name then (c.1, ps.foldl upsertPoint c.2) else c)

/-- `client.retrieve(collection_name, ids=[entry_id])` as observed by
`get_entry`: the stored payload, or `none` when the collection is missing
(raises, caught by the caller) or the id is absent. -/
def retrievePayload (store : Store) (name : String) (pid : String) : Option EntryDict :=
  match List.lookup name store with
  | none => none
  | some pts => (pts.find? (fun q => q.1 = pid)).map Prod.snd

/-- `VectorStore._get_existing_common_collection_names` (lines 74-84). -/
def existingCommonNames (store : Store) : List String :=
  (collectionNames store).filter (fun n => strStartsWith n "kb_common_")

/-- Python truthiness of an optional string: falsy iff `None` or `""`. -/
def optStrFalsy : Option String → Bool
  | none => true
  | some s => s = ""

/-- `VectorStore.add_entry` (vector_store.py lines 86-130) as a transformer of
the collection state. `freshId` stands for the `uuid.uuid4()` draw used when
the entry has no id. Returns the state after the call and the entry id, or
the raised `ValueError` message with the state unchanged (the validation
precedes every client call). -/
def VectorStore.add_entry (store : Store) (freshId : String) (entry : KnowledgeBaseEntry) :
    Store × Except String String :=
  let eid := entry.id.getD freshId
  let entry := { entry with id := some eid }
  match entry.kb_type with
  | .COMMON =>
    match entry.category with
    | none => (store, .error "category is required for common knowledge base entries")
    | some cat =>
      let name := commonCollectionName cat
      (upsertPoints (ensureCollection store name) name [(eid, entry.to_dict)], .ok eid)
  | .TENANT =>
    if optStrFalsy entry.tenant_id then
      (store, .error "tenant_id is required for tenant knowledge base entries")
    else
      let name := tenantCollectionName (entry.tenant_id.getD "")
      (upsertPoints (ensureCollection store name) name [(eid, entry.to_dict)], .ok eid)

/-- Claim C5: for every entry, `VectorStore.add_entry` fails with a validation
error when the entry has the shared tier and no category, and fails with a
validation error when the entry has the tenant tier and no tenant_id; in both
failure cases the store is returned unchanged — no upsert is performed. -/
theorem add_entry_validation (store : Store) (freshId : String) (e : KnowledgeBaseEntry) :
    (e.kb_type = KnowledgeBaseType.COMMON → e.category = none →
      VectorStore.add_entry store freshId e =
        (store, Except.error "category is required for common knowledge base entries")) ∧
    (e.kb_type = KnowledgeBaseType.TENANT → e.tenant_id = none →
      VectorStore.add_entry store freshId e =
        (store, Except.error "tenant_id is required for tenant knowledge base entries")) := by
  constructor
  · intro hk hc
    unfold VectorStore.add_entry
    rw [hk]
    dsimp only
    rw [hc]
  · intro hk ht
    unfold VectorStore.add_entry
    rw [hk]
    dsimp only
    rw [ht]
    rfl

/-- A shared-tier entry lacking its category. -/
def sampleCommonNoCategory : KnowledgeBaseEntry where
  id := none
  tenant_id := none
  kb_type := .COMMON
  title := "t"
  phenomenon := "p"
  root_cause_analysis := "r"
  solutions := ["s"]
  category := none
  tags := []
  created_at := none
  updated_at := none
  source_url := none
  source_type := none
  ticket_key := none
  ticket_id := none

/-- A tenant-tier entry lacking its tenant id. -/
def sampleTenantNoTenant : KnowledgeBaseEntry :=
  { sampleCommonNoCategory with kb_type := .TENANT, category := some .DATABASE }

/-- Witness for C5 on two concrete invalid entries over the empty store. -/
theorem add_entry_validation_witness :
    VectorStore.add_entry [] "id-1" sampleCommonNoCategory =
      ([], Except.error "category is required for common knowledge base entries") ∧
    VectorStore.add_entry [] "id-1" sampleTenantNoTenant =
      ([], Except.error "tenant_id is required for tenant knowledge base entries") :=
  ⟨(add_entry_validation [] "id-1" sampleCommonNoCategory).1 rfl rfl,
    (add_entry_validation [] "id-1" sampleTenantNoTenant).2 rfl rfl⟩

/-! ### VectorStore.add_entries (vector_store.py lines 132-185) -/

/-- `entries_by_collection[collection_name].append(entry)` with dict insertion
order preserved. -/
def groupsInsert (acc : List (String × List KnowledgeBaseEntry)) (name : String)
    (e : KnowledgeBaseEntry) : List (String × List KnowledgeBaseEntry) :=
  if acc.any (fun g => g.1 = name) then
    acc.map (fun g => if g.1 = name then (g.1, g.2 ++ [e]) else g)
  else acc ++ [(name, [e])]

/-- `entry.id = str(uuid.uuid4()) if entry.id is None`: the uuid stream is the
parameter `fresh`, consumed at index `k` only when an id is actually drawn. -/
def assignId (fresh : Nat → String) (k : Nat) (e : KnowledgeBaseEntry) :
    KnowledgeBaseEntry × Nat :=
  match e.id with
  | none => ({ e with id := some (fresh k) }, k + 1)
  | some _ => (e, k)

theorem assignId_fields (fresh : Nat → String) (k : Nat) (e : KnowledgeBaseEntry) :
    (assignId fresh k e).1.kb_type = e.kb_type ∧
      (assignId fresh k e).1.category = e.category ∧
      (assignId fresh k e).1.tenant_id = e.tenant_id := by
  unfold assignId
  cases e.id <;> exact ⟨rfl, rfl, rfl⟩

/-- The first loop of `add_entries` (lines 139-158): assign ids, validate,
resolve and ensure each entry's collection, and group entries by collection;
an invalid entry raises out of the loop before any upsert happened. -/
def addEntriesGroup (fresh : Nat → String) :
    Store → Nat → List KnowledgeBaseEntry → List (String × List KnowledgeBaseEntry) →
      Store × Except String (List (String × List KnowledgeBaseEntry))
  | store, _, [], acc => (store, .ok acc)
  | store, k, e :: rest, acc =>
    let ek := assignId fresh k e
    match ek.1.kb_type with
    | .COMMON =>
      match ek.1.category with
      | none => (store, .error "category is required for common knowledge base entries")
      | some cat =>
        let name := commonCollectionName cat
        addEntriesGroup fresh (ensureCollection store name) ek.2 rest
          (groupsInsert acc name ek.1)
    | .TENANT =>
      if optStrFalsy ek.1.tenant_id then
        (store, .error "tenant_id is required for tenant knowledge base entries")
      else
        let name := tenantCollectionName (ek.1.tenant_id.getD "")
        addEntriesGroup fresh (ensureCollection store name) ek.2 rest
          (groupsInsert acc name ek.1)

/-- `VectorStore.add_entries` (vector_store.py lines 132-185): the whole batch
is validated and grouped first, then one batched upsert per collection runs
and the assigned ids are concatenated in group order. -/
def VectorStore.add_entries (fresh : Nat → String) (store : Store)
    (entries : List KnowledgeBaseEntry) : Store × Except String (List String) :=
  if entries.isEmpty then (store, .ok [])
  else
    match addEntriesGroup fresh store 0 entries [] with
    | (store', .error msg) => (store', .error msg)
    | (store', .ok groups) =>
      (groups.foldl
        (fun st g => upsertPoints st g.1 (g.2.map (fun e => (e.id.getD "", e.to_dict)))) store',
       .ok (groups.foldl (fun ids g => ids ++ g.2.map (fun e => e.id.getD "")) []))

/-- The stored points of a collection (empty for a missing collection). -/
def pointsOf (store : Store) (name : String) : PointList :=
  (List.lookup name store).getD []

theorem lookup_append_empty (n m : String) :
    ∀ store : Store, (List.lookup m (store ++ [(n, [])])).getD [] =
      (List.lookup m store).getD [] := by
  intro store
  induction store with
  | nil =>
    simp only [List.nil_append, List.lookup]
    cases m == n <;> rfl
  | cons c store ih =>
    simp only [List.cons_append, List.lookup]
    cases m == c.1
    · exact ih
    · rfl

theorem pointsOf_ensureCollection (store : Store) (n m : String) :
    pointsOf (ensureCollection store n) m = pointsOf store m := by
  unfold ensureCollection
  by_cases hct : (collectionNames store).contains n
  · rw [if_pos hct]
  · rw [if_neg hct]
    exact lookup_append_empty n m store

/-- An entry missing its tier-required field, as claim C10 puts it. -/
def missingTierField (e : KnowledgeBaseEntry) : Prop :=
  (e.kb_type = KnowledgeBaseType.COMMON ∧ e.category = none) ∨
    (e.kb_type = KnowledgeBaseType.TENANT ∧ e.tenant_id = none)

theorem addEntriesGroup_error (fresh : Nat → String) :
    ∀ (entries : List KnowledgeBaseEntry) (store : Store) (k : Nat)
      (acc : List (String × List KnowledgeBaseEntry)),
      (∃ e ∈ entries, missingTierField e) →
      ∃ store' msg, addEntriesGroup fresh store k entries acc = (store', .error msg) ∧
        ∀ name, pointsOf store' name = pointsOf store name := by
  intro entries
  induction entries with
  | nil =>
    intro store k acc hbad
    obtain ⟨e, he, _⟩ := hbad
    exact absurd he (List.not_mem_nil e)
  | cons e rest ih =>
    intro store k acc hbad
    obtain ⟨hkb, hcat, hten⟩ := assignId_fields fresh k e
    rw [addEntriesGroup]
    cases hek : (assignId fresh k e).1.kb_type with
    | COMMON =>
      cases hec : (assignId fresh k e).1.category with
      | none => exact ⟨store, _, rfl, fun name => rfl⟩
      | some cat =>
        have hnotbad : ¬ missingTierField e := by
          intro hb
          rcases hb with ⟨_, hc⟩ | ⟨ht, _⟩
          · rw [hcat, hc] at hec
            exact Option.noConfusion hec
          · rw [hkb, ht] at hek
            exact KnowledgeBaseType.noConfusion hek
        obtain ⟨b, hb, hbadb⟩ := hbad
        rcases List.mem_cons.mp hb with rfl | hb
        · exact absurd hbadb hnotbad
        · obtain ⟨store', msg, heq, hpts⟩ :=
            ih (ensureCollection store (commonCollectionName cat)) (assignId fresh k e).2
              (groupsInsert acc (commonCollectionName cat) (assignId fresh k e).1) ⟨b, hb, hbadb⟩
          refine ⟨store', msg, heq, fun name => ?_⟩
          rw [hpts name, pointsOf_ensureCollection]
    | TENANT =>
      by_cases hfal : optStrFalsy (assignId fresh k e).1.tenant_id = true
      · rw [if_pos hfal]
        exact ⟨store, _, rfl, fun name => rfl⟩
      · rw [if_neg hfal]
        have hnotbad : ¬ missingTierField e := by
          intro hb
          rcases hb with ⟨hc, _⟩ | ⟨_, ht⟩
          · rw [hkb, hc] at hek
            exact KnowledgeBaseType.noConfusion hek
          · rw [hten, ht] at hfal
            exact hfal rfl
        obtain ⟨b, hb, hbadb⟩ := hbad
        rcases List.mem_cons.mp hb with rfl | hb
        · exact absurd hbadb hnotbad
        · obtain ⟨store', msg, heq, hpts⟩ :=
            ih (ensureCollection store
                (tenantCollectionName ((assignId fresh k e).1.tenant_id.getD "")))
              (assignId fresh k e).2
              (groupsInsert acc
                (tenantCollectionName ((assignId fresh k e).1.tenant_id.getD ""))
                (assignId fresh k e).1) ⟨b, hb, hbadb⟩
          refine ⟨store', msg, heq, fun name => ?_⟩
          rw [hpts name, pointsOf_ensureCollection]

/-- Claim C10: for every batch in which some entry is missing its
tier-required field (category for the shared tier, tenant_id for the tenant
tier), `VectorStore.add_entries` raises the validation error before performing
any upsert: validation and grouping of the whole batch precede all batched
upserts, so every collection's stored points are exactly as before the
call. -/
theorem add_entries_atomic_validation (fresh : Nat → String) (store : Store)
    (entries : List KnowledgeBaseEntry)
    (hbad : ∃ e ∈ entries, missingTierField e) :
    ∃ store' msg, VectorStore.add_entries fresh store entries = (store', Except.error msg) ∧
      ∀ name, pointsOf store' name = pointsOf store name := by
  obtain ⟨store', msg, heq, hpts⟩ := addEntriesGroup_error fresh entries store 0 [] hbad
  have hne : entries.isEmpty = false := by
    obtain ⟨e, he, _⟩ := hbad
    cases entries with
    | nil => exact absurd he (List.not_mem_nil e)
    | cons a l => rfl
  refine ⟨store', msg, ?_, hpts⟩
  unfold VectorStore.add_entries
  rw [hne]
  simp only [Bool.false_eq_true, if_false, heq]

/-- A valid shared-tier entry. -/
def sampleCommonValid : KnowledgeBaseEntry :=
  { sampleCommonNoCategory with category := some .KUBERNETES }

/-- Witness for C10: a batch holding a valid entry followed by an invalid one
leaves every collection of the one-collection store untouched. -/
theorem add_entries_atomic_validation_witness :
    ∃ store' msg,
      VectorStore.add_entries (fun _ => "id-0") [("kb_common_database", [])]
        [sampleCommonValid, sampleTenantNoTenant] = (store', Except.error msg) ∧
      ∀ name, pointsOf store' name = pointsOf [("kb_common_database", [])] name :=
  add_entries_atomic_validation (fun _ => "id-0") [("kb_common_database", [])]
    [sampleCommonValid, sampleTenantNoTenant]
    ⟨sampleTenantNoTenant, by decide, Or.inr ⟨rfl, rfl⟩⟩

/-! ### VectorStore.search (vector_store.py lines 187-253)

Similarity scores live in the backend: for one fixed query, the `backend`
parameter gives every collection's scored hit list (`none` models a collection
whose search call raises). Scores are modelled as rationals — every claim
about them concerns ordering and thresholds. -/

/-- A scored point as returned by `client.search`. -/
structure Hit where
  id : String
  score : ℚ
  payload : EntryDict
deriving DecidableEq

/-- One element of the result list built by `VectorStore.search` (lines
245-249). -/
structure SearchResult where
  entry : KnowledgeBaseEntry
  score : ℚ
  entry_id : String
deriving DecidableEq

/-- Insert into a descending-sorted list, after every earlier element whose
key is at least as large (the stable insertion underlying a stable descending
sort, as Python's `sort(key=..., reverse=True)` performs). -/
def insertDescBy (key : α → ℚ) (a : α) : List α → List α
  | [] => [a]
  | b :: l => if key a < key b then b :: insertDescBy key a l else a :: b :: l

/-- Stable descending sort by key. -/
def sortDescBy (key : α → ℚ) : List α → List α
  | [] => []
  | a :: l => insertDescBy key a (sortDescBy key l)

theorem mem_insertDescBy (key : α → ℚ) (a c : α) :
    ∀ l, c ∈ insertDescBy key a l ↔ c = a ∨ c ∈ l := by
  intro l
  induction l with
  | nil => simp [insertDescBy]
  | cons b l ih =>
    simp only [insertDescBy]
    by_cases h : key a < key b
    · rw [if_pos h]
      simp only [List.mem_cons, ih]
      tauto
    · rw [if_neg h]
      simp only [List.mem_cons]

theorem mem_sortDescBy (key : α → ℚ) (c : α) :
    ∀ l, c ∈ sortDescBy key l ↔ c ∈ l := by
  intro l
  induction l with
  | nil => simp [sortDescBy]
  | cons a l ih =>
    simp only [sortDescBy, mem_insertDescBy, List.mem_cons, ih]

theorem pairwise_insertDescBy (key : α → ℚ) (a : α) :
    ∀ l, l.Pairwise (fun x y => key y ≤ key x) →
      (insertDescBy key a l).Pairwise (fun x y => key y ≤ key x) := by
  intro l
  induction l with
  | nil => simp [insertDescBy]
  | cons b l ih =>
    intro hp
    rw [List.pairwise_cons] at hp
    obtain ⟨hb, hl⟩ := hp
    simp only [insertDescBy]
    by_cases h : key a < key b
    · rw [if_pos h]
      rw [List.pairwise_cons]
      refine ⟨?_, ih hl⟩
      intro c hc
      rcases (mem_insertDescBy key a c l).mp hc with rfl | hc
      · exact le_of_lt h
      · exact hb c hc
    · rw [if_neg h]
      push_neg at h
      rw [List.pairwise_cons]
      refine ⟨?_, List.pairwise_cons.mpr ⟨hb, hl⟩⟩
      intro c hc
      rcases List.mem_cons.mp hc with rfl | hc
      · exact h
      · exact le_trans (hb c hc) h

theorem pairwise_sortDescBy (key : α → ℚ) :
    ∀ l : List α, (sortDescBy key l).Pairwise (fun x y => key y ≤ key x) := by
  intro l
  induction l with
  | nil => simp [sortDescBy]
  | cons a l ih => exact pairwise_insertDescBy key a _ ih

/-- Model of `client.search(collection_name, query_vector, limit=top_k,
score_threshold=min_score)`: Qdrant returns at most `limit` hits whose score
is at least `threshold`, best first. -/
def qdrantSearch (hits : List Hit) (limit : Nat) (threshold : ℚ) : List Hit :=
  (sortDescBy Hit.score (hits.filter (fun h => threshold ≤ h.score))).take limit

/-- Collection-set resolution of `VectorStore.search` (lines 213-227), shared
by `get_entry` (lines 257-267) with `category = none`: the outer `none` is
the early `return []` for a tenant search without tenant id — no partition is
searched at all. For the common tier without a category, every existing
common collection is used, falling back to the full defined category set when
none exist yet. -/
def search_collection_names (store : Store) (kb_type : KnowledgeBaseType)
    (tenant_id : Option String) (category : Option ITIssueCategory) :
    Option (List String) :=
  match kb_type with
  | .TENANT =>
    match tenant_id with
    | none => none
    | some tid => some [tenantCollectionName tid]
  | .COMMON =>
    match category with
    | some cat => some [commonCollectionName cat]
    | none =>
      if (existingCommonNames store).isEmpty then
        some (ITIssueCategory.all.map commonCollectionName)
      else some (existingCommonNames store)

/-- The `for result in search_results` loop (lines 242-249): each payload is
rebuilt through `from_dict` and appended with its score and id; a `from_dict`
failure is raised out of the whole search call (it happens outside the
per-collection `try`). -/
def resultsOfHits : List Hit → Except String (List SearchResult)
  | [] => .ok []
  | h :: hits =>
    match KnowledgeBaseEntry.from_dict h.payload with
    | none => .error "invalid stored payload"
    | some e =>
      match resultsOfHits hits with
      | .error msg => .error msg
      | .ok rest => .ok ({ entry := e, score := h.score, entry_id := h.id } :: rest)

/-- The `for collection_name in collection_names` loop of `VectorStore.search`
(lines 230-249): search each collection, skipping (`except: continue`) one
whose search raises, and accumulate the converted results in order. -/
def searchFold (backend : String → Option (List Hit)) (top_k : Nat) (min_score : ℚ) :
    List String → List SearchResult → Except String (List SearchResult)
  | [], acc => .ok acc
  | name :: rest, acc =>
    match backend name with
    | none => searchFold backend top_k min_score rest acc
    | some hits =>
      match resultsOfHits (qdrantSearch hits top_k min_score) with
      | .error msg => .error msg
      | .ok rs => searchFold backend top_k min_score rest (acc ++ rs)

/-- `VectorStore.search` (vector_store.py lines 187-253): resolve the
collection set, search each collection (skipping one whose search raises),
convert and merge the per-collection results, sort by descending score and
truncate to `top_k`. -/
def VectorStore.search (backend : String → Option (List Hit)) (store : Store)
    (kb_type : KnowledgeBaseType) (tenant_id : Option String) (top_k : Nat)
    (min_score : ℚ) (category : Option ITIssueCategory) :
    Except String (List SearchResult) :=
  match search_collection_names store kb_type tenant_id category with
  | none => .ok []
  | some names =>
    match searchFold backend top_k min_score names [] with
    | .error msg => .error msg
    | .ok results => .ok ((sortDescBy (fun r => r.score) results).take top_k)

/-- Claim C8: for every query, `VectorStore.search` called with the tenant
tier and `tenant_id = None` returns the empty list without raising any error,
and resolves no collection set at all — no partition search is issued. -/
theorem search_tenant_none (backend : String → Option (List Hit)) (store : Store)
    (top_k : Nat) (min_score : ℚ) (category : Option ITIssueCategory) :
    VectorStore.search backend store KnowledgeBaseType.TENANT none top_k min_score category =
        Except.ok [] ∧
      search_collection_names store KnowledgeBaseType.TENANT none category = none :=
  ⟨rfl, rfl⟩

theorem resultsOfHits_mem (hits : List Hit) (rs : List SearchResult)
    (heq : resultsOfHits hits = .ok rs) :
    ∀ r ∈ rs, ∃ h ∈ hits, h.id = r.entry_id ∧ h.score = r.score := by
  induction hits generalizing rs with
  | nil =>
    rw [resultsOfHits] at heq
    cases heq
    intro r hr
    exact absurd hr (List.not_mem_nil r)
  | cons h hits ih =>
    rw [resultsOfHits] at heq
    cases hfd : KnowledgeBaseEntry.from_dict h.payload with
    | none =>
      rw [hfd] at heq
      exact Except.noConfusion heq
    | some e =>
      rw [hfd] at heq
      cases hrest : resultsOfHits hits with
      | error msg =>
        rw [hrest] at heq
        exact Except.noConfusion heq
      | ok rs' =>
        rw [hrest] at heq
        cases heq
        intro r hr
        rcases List.mem_cons.mp hr with rfl | hr
        · exact ⟨h, List.mem_cons_self _ _, rfl, rfl⟩
        · obtain ⟨h', hh', hid, hsc⟩ := ih rs' hrest r hr
          exact ⟨h', List.mem_cons_of_mem _ hh', hid, hsc⟩

theorem qdrantSearch_mem (hits : List Hit) (limit : Nat) (threshold : ℚ) :
    ∀ h ∈ qdrantSearch hits limit threshold, h ∈ hits ∧ threshold ≤ h.score := by
  intro h hh
  have h1 : h ∈ sortDescBy Hit.score (hits.filter (fun h => threshold ≤ h.score)) :=
    List.mem_of_mem_take hh
  have h2 : h ∈ hits.filter (fun h => threshold ≤ h.score) :=
    (mem_sortDescBy Hit.score h _).mp h1
  have h3 := List.mem_filter.mp h2
  exact ⟨h3.1, by simpa using h3.2⟩

/-- The per-result guarantee of the collection loop of `VectorStore.search`:
every merged result scores at least `min_score` and carries the id and score
of a hit stored in one of the searched collections. -/
theorem searchFold_mem (backend : String → Option (List Hit)) (top_k : Nat)
    (min_score : ℚ) :
    ∀ (names : List String) (acc res : List SearchResult),
      searchFold backend top_k min_score names acc = .ok res →
      ∀ r ∈ res, r ∈ acc ∨
        (min_score ≤ r.score ∧ ∃ name ∈ names, ∃ hits, backend name = some hits ∧
          ∃ h ∈ hits, h.id = r.entry_id ∧ h.score = r.score) := by
  intro names
  induction names with
  | nil =>
    intro acc res heq r hr
    rw [searchFold] at heq
    cases heq
    exact Or.inl hr
  | cons name rest ih =>
    intro acc res heq r hr
    rw [searchFold] at heq
    cases hb : backend name with
    | none =>
      rw [hb] at heq
      dsimp only at heq
      rcases ih acc res heq r hr with h | ⟨hs, nm, hnm, rest'⟩
      · exact Or.inl h
      · exact Or.inr ⟨hs, nm, List.mem_cons_of_mem _ hnm, rest'⟩
    | some hits =>
      rw [hb] at heq
      dsimp only at heq
      cases hrs : resultsOfHits (qdrantSearch hits top_k min_score) with
      | error msg =>
        rw [hrs] at heq
        exact Except.noConfusion heq
      | ok rs =>
        rw [hrs] at heq
        rcases ih (acc ++ rs) res heq r hr with h | ⟨hs, nm, hnm, rest'⟩
        · rcases List.mem_append.mp h with h | h
          · exact Or.inl h
          · obtain ⟨hh, hhm, hid, hsc⟩ := resultsOfHits_mem _ rs hrs r h
            obtain ⟨hmem, hthr⟩ := qdrantSearch_mem hits top_k min_score hh hhm
            exact Or.inr ⟨by rw [← hsc]; exact hthr, name, List.mem_cons_self _ _, hits, hb,
              hh, hmem, hid, hsc⟩
        · exact Or.inr ⟨hs, nm, List.mem_cons_of_mem _ hnm, rest'⟩

/-- Claim C3: for every query with the shared tier and no category given,
`VectorStore.search` resolves one per-partition search target for every
existing shared partition (or the partition name of every defined category
when none exist), and when it returns (partitions whose search raises having
been skipped), every returned result scores at least `min_score` (the
per-partition floor passed to each partition search) and carries the id and
score of a hit of a searched partition, and the merged result list is sorted
in descending score order with length at most `top_k`. -/
theorem search_common_fanout (backend : String → Option (List Hit)) (store : Store)
    (tenant_id : Option String) (top_k : Nat) (min_score : ℚ)
    (res : List SearchResult)
    (heq : VectorStore.search backend store KnowledgeBaseType.COMMON tenant_id top_k
      min_score none = .ok res) :
    search_collection_names store KnowledgeBaseType.COMMON tenant_id none =
      some (if (existingCommonNames store).isEmpty then
        ITIssueCategory.all.map commonCollectionName
      else existingCommonNames store) ∧
    res.length ≤ top_k ∧
    res.Pairwise (fun x y => y.score ≤ x.score) ∧
    ∀ r ∈ res, min_score ≤ r.score ∧
      ∃ name ∈ (if (existingCommonNames store).isEmpty then
          ITIssueCategory.all.map commonCollectionName
        else existingCommonNames store),
        ∃ hits, backend name = some hits ∧ ∃ h ∈ hits, h.id = r.entry_id ∧
          h.score = r.score := by
  have hnames : search_collection_names store KnowledgeBaseType.COMMON tenant_id none =
      some (if (existingCommonNames store).isEmpty then
        ITIssueCategory.all.map commonCollectionName
      else existingCommonNames store) := by
    unfold search_collection_names
    by_cases he : (existingCommonNames store).isEmpty
    · rw [if_pos he, if_pos he]
    · rw [if_neg he, if_neg he]
  unfold VectorStore.search at heq
  rw [hnames] at heq
  dsimp only at heq
  set names := if (existingCommonNames store).isEmpty then
    ITIssueCategory.all.map commonCollectionName
  else existingCommonNames store with hnamesdef
  cases hfold : searchFold backend top_k min_score names [] with
  | error msg =>
    rw [hfold] at heq
    exact Except.noConfusion heq
  | ok results =>
    rw [hfold] at heq
    have hres : res = (sortDescBy (fun r => r.score) results).take top_k := by
      cases heq
      rfl
    subst hres
    refine ⟨hnames, ?_, ?_, ?_⟩
    · rw [List.length_take]
      omega
    · exact (pairwise_sortDescBy (fun r => r.score) results).sublist
        (List.take_sublist _ _)
    · intro r hr
      have hmem : r ∈ results :=
        (mem_sortDescBy (fun r => r.score) r results).mp (List.mem_of_mem_take hr)
      rcases searchFold_mem backend top_k min_score names [] results hfold r hmem with
        h | ⟨hs, nm, hnm, hits, hbk, hh, hhm, hid, hsc⟩
      · exact absurd h (List.not_mem_nil r)
      · exact ⟨hs, nm, hnm, hits, hbk, hh, hhm, hid, hsc⟩

/-- A stored entry with an id and a timestamp, used by the search and
round-trip witnesses. -/
def sampleStoredEntry : KnowledgeBaseEntry :=
  { sampleCommonValid with id := some "e1", created_at := some ⟨"2024-01-01T00:00:00"⟩ }

/-- Its stored payload. -/
def samplePayload : EntryDict :=
  KnowledgeBaseEntry.to_dict sampleStoredEntry

/-- A one-collection store holding that payload. -/
def searchStore0 : Store :=
  [("kb_common_kubernetes", [("e1", samplePayload)])]

/-- A backend in which only that collection answers, with one hit of score 1;
every other collection's search raises. -/
def searchBackend0 : String → Option (List Hit) := fun n =>
  if n = "kb_common_kubernetes" then
    some [{ id := "e1", score := 1, payload := samplePayload }]
  else none

/-- The result list that search returns on that store and backend. -/
def searchRes0 : List SearchResult :=
  [{ entry := sampleStoredEntry, score := 1, entry_id := "e1" }]

/-- Witness for C3 on the one-collection store. -/
theorem search_common_fanout_witness :
    search_collection_names searchStore0 KnowledgeBaseType.COMMON none none =
      some (if (existingCommonNames searchStore0).isEmpty then
        ITIssueCategory.all.map commonCollectionName
      else existingCommonNames searchStore0) ∧
    searchRes0.length ≤ 5 ∧
    searchRes0.Pairwise (fun x y => y.score ≤ x.score) ∧
    ∀ r ∈ searchRes0, (0 : ℚ) ≤ r.score ∧
      ∃ name ∈ (if (existingCommonNames searchStore0).isEmpty then
          ITIssueCategory.all.map commonCollectionName
        else existingCommonNames searchStore0),
        ∃ hits, searchBackend0 name = some hits ∧ ∃ h ∈ hits, h.id = r.entry_id ∧
          h.score = r.score :=
  search_common_fanout searchBackend0 searchStore0 none 5 0 searchRes0 rfl

/-! ## KnowledgeBaseService.search_both (ai-gateway/app/services/knowledge_base.py) -/

/-- `KnowledgeBaseService.search_common_kb` (knowledge_base.py lines 84-103):
a shared-tier store search with no tenant id. -/
def search_common_kb (backend : String → Option (List Hit)) (store : Store)
    (top_k : Nat) (min_score : ℚ) (category : Option ITIssueCategory) :
    Except String (List SearchResult) :=
  VectorStore.search backend store KnowledgeBaseType.COMMON none top_k min_score category

/-- `KnowledgeBaseService.search_tenant_kb` (knowledge_base.py lines 105-124). -/
def search_tenant_kb (backend : String → Option (List Hit)) (store : Store)
    (tenant_id : String) (top_k : Nat) (min_score : ℚ) :
    Except String (List SearchResult) :=
  VectorStore.search backend store KnowledgeBaseType.TENANT (some tenant_id) top_k min_score none

structure SearchBothResult where
  common : List SearchResult
  tenant : List SearchResult
deriving DecidableEq

/-- One dict update `deduped[entry_id] = result` (knowledge_base.py line 159):
walk the kept results; at the first one with the same entry id, replace it in
place when the new score is strictly greater, otherwise keep it; append when
no kept result has the id. The dict key always equals the value's `entry_id`,
so the dict is represented by its value list. -/
def dedupUpdate (r : SearchResult) : List SearchResult → List SearchResult
  | [] => [r]
  | v :: vs =>
    if v.entry_id = r.entry_id then
      if v.score < r.score then r :: vs else v :: vs
    else v :: dedupUpdate r vs

/-- One iteration of the dedup loop (lines 154-159): results with a falsy
entry id are skipped. -/
def dedupStep (acc : List SearchResult) (r : SearchResult) : List SearchResult :=
  if r.entry_id = "" then acc else dedupUpdate r acc

/-- The dedup loop over the combined per-category results (lines 153-159). -/
def dedupById (results : List SearchResult) : List SearchResult :=
  results.foldl dedupStep []

/-- The per-category loop of `search_both` (lines 142-151): one shared-tier
search per requested category, results concatenated; an error propagates. -/
def searchPerCategory (backend : String → Option (List Hit)) (store : Store)
    (common_top_k : Nat) (min_score : ℚ) :
    List ITIssueCategory → List SearchResult → Except String (List SearchResult)
  | [], acc => .ok acc
  | cat :: cats, acc =>
    match search_common_kb backend store common_top_k min_score (some cat) with
    | .error msg => .error msg
    | .ok rs => searchPerCategory backend store common_top_k min_score cats (acc ++ rs)

/-- `KnowledgeBaseService.search_both` (knowledge_base.py lines 126-174).
`if common_categories:` is Python truthiness: `None` and the empty list both
take the single unscoped search; `if tenant_id:` likewise leaves the tenant
result list empty for `None` and for the empty string. -/
def search_both (backend : String → Option (List Hit)) (store : Store)
    (tenant_id : Option String) (common_top_k tenant_top_k : Nat) (min_score : ℚ)
    (common_categories : Option (List ITIssueCategory)) :
    Except String SearchBothResult :=
  let commonRes : Except String (List SearchResult) :=
    match common_categories with
    | some (c :: cs) =>
      match searchPerCategory backend store common_top_k min_score (c :: cs) [] with
      | .error msg => .error msg
      | .ok combined =>
        .ok ((sortDescBy (fun r => r.score) (dedupById combined)).take common_top_k)
    | _ => search_common_kb backend store common_top_k min_score none
  match commonRes with
  | .error msg => .error msg
  | .ok common =>
    if optStrFalsy tenant_id then .ok ⟨common, []⟩
    else
      match search_tenant_kb backend store (tenant_id.getD "") tenant_top_k min_score with
      | .error msg => .error msg
      | .ok tenant => .ok ⟨common, tenant⟩

theorem mem_dedupUpdate (r v' : SearchResult) :
    ∀ acc, v' ∈ dedupUpdate r acc → v' ∈ acc ∨ v' = r := by
  intro acc
  induction acc with
  | nil =>
    intro h
    simp only [dedupUpdate, List.mem_singleton] at h
    exact Or.inr h
  | cons v vs ih =>
    intro h
    simp only [dedupUpdate] at h
    by_cases he : v.entry_id = r.entry_id
    · rw [if_pos he] at h
      by_cases hs : v.score < r.score
      · rw [if_pos hs] at h
        rcases List.mem_cons.mp h with rfl | h
        · exact Or.inr rfl
        · exact Or.inl (List.mem_cons_of_mem _ h)
      · rw [if_neg hs] at h
        exact Or.inl h
    · rw [if_neg he] at h
      rcases List.mem_cons.mp h with rfl | h
      · exact Or.inl (List.mem_cons_self _ _)
      · rcases ih h with h | h
        · exact Or.inl (List.mem_cons_of_mem _ h)
        · exact Or.inr h

theorem keys_dedupUpdate (r : SearchResult) (k : String) :
    ∀ acc, k ∈ (dedupUpdate r acc).map (fun v => v.entry_id) ↔
      k ∈ acc.map (fun v => v.entry_id) ∨ k = r.entry_id := by
  intro acc
  induction acc with
  | nil => simp [dedupUpdate]
  | cons v vs ih =>
    simp only [dedupUpdate]
    by_cases he : v.entry_id = r.entry_id
    · rw [if_pos he]
      by_cases hs : v.score < r.score
      · rw [if_pos hs]
        simp only [List.map_cons, List.mem_cons, he]
        tauto
      · rw [if_neg hs]
        simp only [List.map_cons, List.mem_cons, he]
        tauto
    · rw [if_neg he]
      simp only [List.map_cons, List.mem_cons, ih]
      tauto

theorem nodup_keys_dedupUpdate (r : SearchResult) :
    ∀ acc, (acc.map (fun v => v.entry_id)).Nodup →
      ((dedupUpdate r acc).map (fun v => v.entry_id)).Nodup := by
  intro acc
  induction acc with
  | nil =>
    intro _
    simp [dedupUpdate]
  | cons v vs ih =>
    intro hnd
    rw [List.map_cons, List.nodup_cons] at hnd
    obtain ⟨hvn, hnd⟩ := hnd
    simp only [dedupUpdate]
    by_cases he : v.entry_id = r.entry_id
    · rw [if_pos he]
      by_cases hs : v.score < r.score
      · rw [if_pos hs]
        rw [List.map_cons, List.nodup_cons]
        exact ⟨by rw [← he]; exact hvn, hnd⟩
      · rw [if_neg hs]
        rw [List.map_cons, List.nodup_cons]
        exact ⟨hvn, hnd⟩
    · rw [if_neg he]
      rw [List.map_cons, List.nodup_cons]
      refine ⟨?_, ih hnd⟩
      intro hmem
      rcases (keys_dedupUpdate r v.entry_id vs).mp hmem with h | h
      · exact hvn h
      · exact he h

theorem dedupUpdate_score_max (processed : List SearchResult) (r : SearchResult) :
    ∀ acc, (acc.map (fun v => v.entry_id)).Nodup →
      (∀ v ∈ acc, ∀ y ∈ processed, y.entry_id = v.entry_id → y.score ≤ v.score) →
      (∀ y ∈ processed, y.entry_id = r.entry_id → ∃ v ∈ acc, v.entry_id = r.entry_id) →
      ∀ v' ∈ dedupUpdate r acc, ∀ y, (y ∈ processed ∨ y = r) →
        y.entry_id = v'.entry_id → y.score ≤ v'.score := by
  intro acc
  induction acc with
  | nil =>
    intro _ _ hcov v' hv' y hy heid
    simp only [dedupUpdate, List.mem_singleton] at hv'
    rcases hy with hyp | hyr
    · obtain ⟨w, hw, _⟩ := hcov y hyp (by rw [heid, hv'])
      exact absurd hw (List.not_mem_nil w)
    · rw [hyr, hv']
  | cons v vs ih =>
    intro hnd hmax hcov v' hv' y hy heid
    rw [List.map_cons, List.nodup_cons] at hnd
    obtain ⟨hvn, hnd'⟩ := hnd
    simp only [dedupUpdate] at hv'
    by_cases he : v.entry_id = r.entry_id
    · rw [if_pos he] at hv'
      by_cases hs : v.score < r.score
      · rw [if_pos hs] at hv'
        rcases List.mem_cons.mp hv' with hv'r | hv't
        · rcases hy with hyp | hyr
          · have h1 : y.score ≤ v.score :=
              hmax v (List.mem_cons_self _ _) y hyp (by rw [heid, hv'r, ← he])
            rw [hv'r]
            exact le_trans h1 (le_of_lt hs)
          · rw [hyr, hv'r]
        · rcases hy with hyp | hyr
          · exact hmax v' (List.mem_cons_of_mem _ hv't) y hyp heid
          · have hvv : v.entry_id ∈ vs.map (fun w => w.entry_id) :=
              List.mem_map.mpr ⟨v', hv't, by rw [← heid, hyr, he]⟩
            exact absurd hvv hvn
      · rw [if_neg hs] at hv'
        rcases List.mem_cons.mp hv' with hv'v | hv't
        · rcases hy with hyp | hyr
          · exact hmax v' (by rw [hv'v]; exact List.mem_cons_self _ _) y hyp heid
          · push_neg at hs
            rw [hyr, hv'v]
            exact hs
        · rcases hy with hyp | hyr
          · exact hmax v' (List.mem_cons_of_mem _ hv't) y hyp heid
          · have hvv : v.entry_id ∈ vs.map (fun w => w.entry_id) :=
              List.mem_map.mpr ⟨v', hv't, by rw [← heid, hyr, he]⟩
            exact absurd hvv hvn
    · rw [if_neg he] at hv'
      rcases List.mem_cons.mp hv' with hv'v | hv't
      · rcases hy with hyp | hyr
        · exact hmax v' (by rw [hv'v]; exact List.mem_cons_self _ _) y hyp heid
        · rw [hyr, hv'v] at heid
          exact absurd heid.symm he
      · refine ih hnd' (fun w hw => hmax w (List.mem_cons_of_mem _ hw)) ?_ v' hv't y hy heid
        intro y' hy' heid'
        obtain ⟨w, hw, hweid⟩ := hcov y' hy' heid'
        rcases List.mem_cons.mp hw with hwv | hw
        · exact absurd (by rw [← hwv]; exact hweid) he
        · exact ⟨w, hw, hweid⟩

/-- The full invariant of the dedup loop of `search_both`, over the processed
prefix of the combined result list. -/
structure DedupInv (processed acc : List SearchResult) : Prop where
  keysNodup : (acc.map (fun v => v.entry_id)).Nodup
  keysTruthy : ∀ v ∈ acc, v.entry_id ≠ ""
  sub : ∀ v ∈ acc, v ∈ processed
  maxScore : ∀ v ∈ acc, ∀ y ∈ processed, y.entry_id = v.entry_id → y.score ≤ v.score
  covers : ∀ y ∈ processed, y.entry_id ≠ "" →
    y.entry_id ∈ acc.map (fun v => v.entry_id)

theorem dedupStep_inv (processed acc : List SearchResult) (r : SearchResult)
    (h : DedupInv processed acc) : DedupInv (processed ++ [r]) (dedupStep acc r) := by
  unfold dedupStep
  by_cases hre : r.entry_id = ""
  · rw [if_pos hre]
    refine ⟨h.keysNodup, h.keysTruthy, fun v hv => List.mem_append_left _ (h.sub v hv),
      ?_, ?_⟩
    · intro v hv y hy heid
      rcases List.mem_append.mp hy with hy | hy
      · exact h.maxScore v hv y hy heid
      · simp only [List.mem_singleton] at hy
        subst hy
        exact absurd (heid ▸ hre) (h.keysTruthy v hv)
    · intro y hy hyne
      rcases List.mem_append.mp hy with hy | hy
      · exact h.covers y hy hyne
      · simp only [List.mem_singleton] at hy
        subst hy
        exact absurd hre hyne
  · rw [if_neg hre]
    refine ⟨nodup_keys_dedupUpdate r acc h.keysNodup, ?_, ?_, ?_, ?_⟩
    · intro v hv
      rcases mem_dedupUpdate r v acc hv with hv | rfl
      · exact h.keysTruthy v hv
      · exact hre
    · intro v hv
      rcases mem_dedupUpdate r v acc hv with hv | rfl
      · exact List.mem_append_left _ (h.sub v hv)
      · exact List.mem_append_right _ (List.mem_singleton.mpr rfl)
    · intro v hv y hy heid
      have hcov : ∀ y' ∈ processed, y'.entry_id = r.entry_id →
          ∃ w ∈ acc, w.entry_id = r.entry_id := by
        intro y' hy' heid'
        have := h.covers y' hy' (heid' ▸ hre)
        rw [heid'] at this
        obtain ⟨w, hw, hweid⟩ := List.mem_map.mp this
        exact ⟨w, hw, hweid⟩
      have hy' : y ∈ processed ∨ y = r := by
        rcases List.mem_append.mp hy with hy | hy
        · exact Or.inl hy
        · simp only [List.mem_singleton] at hy
          exact Or.inr hy
      exact dedupUpdate_score_max processed r acc h.keysNodup h.maxScore hcov v hv y hy' heid
    · intro y hy hyne
      rcases List.mem_append.mp hy with hy | hy
      · exact (keys_dedupUpdate r y.entry_id acc).mpr (Or.inl (h.covers y hy hyne))
      · simp only [List.mem_singleton] at hy
        exact (keys_dedupUpdate r y.entry_id acc).mpr (Or.inr (by rw [hy]))

theorem dedupFold_inv (results : List SearchResult) :
    ∀ processed acc, DedupInv processed acc →
      DedupInv (processed ++ results) (results.foldl dedupStep acc) := by
  induction results with
  | nil =>
    intro processed acc h
    simpa using h
  | cons r rest ih =>
    intro processed acc h
    have h1 := dedupStep_inv processed acc r h
    have h2 := ih (processed ++ [r]) (dedupStep acc r) h1
    rw [List.foldl_cons]
    simpa [List.append_assoc] using h2

theorem dedupById_inv (results : List SearchResult) :
    DedupInv results (dedupById results) := by
  have h0 : DedupInv [] [] :=
    ⟨List.nodup_nil, fun v hv => absurd hv (List.not_mem_nil v),
      fun v hv => absurd hv (List.not_mem_nil v),
      fun v hv => absurd hv (List.not_mem_nil v),
      fun y hy => absurd hy (List.not_mem_nil y)⟩
  have := dedupFold_inv results [] [] h0
  simpa [dedupById] using this

theorem perm_insertDescBy (key : α → ℚ) (a : α) :
    ∀ l, List.Perm (insertDescBy key a l) (a :: l) := by
  intro l
  induction l with
  | nil => exact List.Perm.refl _
  | cons b l ih =>
    simp only [insertDescBy]
    by_cases h : key a < key b
    · rw [if_pos h]
      exact (List.Perm.cons b ih).trans (List.Perm.swap a b l)
    · rw [if_neg h]

theorem perm_sortDescBy (key : α → ℚ) :
    ∀ l : List α, List.Perm (sortDescBy key l) l := by
  intro l
  induction l with
  | nil => exact List.Perm.refl _
  | cons a l ih =>
    exact (perm_insertDescBy key a (sortDescBy key l)).trans (List.Perm.cons a ih)

/-- Claim C4: for every query and every non-empty list of requested common
categories, `KnowledgeBaseService.search_both` concatenates the per-category
shared-tier search results (`searchPerCategory`), keeps for each entry id only
a result carrying the highest score among the duplicates, sorts the
deduplicated results in descending score order, and returns at most
`common_top_k` shared results; the tenant result list is empty whenever
`tenant_id` is absent or empty (Python-falsy). -/
theorem search_both_dedup (backend : String → Option (List Hit)) (store : Store)
    (tenant_id : Option String) (common_top_k tenant_top_k : Nat) (min_score : ℚ)
    (c : ITIssueCategory) (cs : List ITIssueCategory) (r : SearchBothResult)
    (heq : search_both backend store tenant_id common_top_k tenant_top_k min_score
      (some (c :: cs)) = .ok r) :
    (∃ combined, searchPerCategory backend store common_top_k min_score (c :: cs) [] =
        .ok combined ∧
      ∀ x ∈ r.common, x ∈ combined ∧
        ∀ y ∈ combined, y.entry_id = x.entry_id → y.score ≤ x.score) ∧
    (r.common.map (fun x => x.entry_id)).Nodup ∧
    r.common.Pairwise (fun x y => y.score ≤ x.score) ∧
    r.common.length ≤ common_top_k ∧
    (optStrFalsy tenant_id = true → r.tenant = []) := by
  unfold search_both at heq
  dsimp only at heq
  cases hpc : searchPerCategory backend store common_top_k min_score (c :: cs) [] with
  | error msg =>
    rw [hpc] at heq
    exact Except.noConfusion heq
  | ok combined =>
    rw [hpc] at heq
    dsimp only at heq
    have hinv := dedupById_inv combined
    have hcommon :
        r.common = (sortDescBy (fun x => x.score) (dedupById combined)).take common_top_k ∧
        (optStrFalsy tenant_id = true → r.tenant = []) := by
      by_cases hten : optStrFalsy tenant_id = true
      · rw [if_pos hten] at heq
        cases heq
        exact ⟨rfl, fun _ => rfl⟩
      · rw [if_neg hten] at heq
        cases hts : VectorStore.search backend store KnowledgeBaseType.TENANT
            (some (tenant_id.getD "")) tenant_top_k min_score none with
        | error msg =>
          rw [show search_tenant_kb backend store (tenant_id.getD "") tenant_top_k min_score =
            Except.error msg from hts] at heq
          exact Except.noConfusion heq
        | ok tenant =>
          rw [show search_tenant_kb backend store (tenant_id.getD "") tenant_top_k min_score =
            Except.ok tenant from hts] at heq
          cases heq
          exact ⟨rfl, fun h => absurd h hten⟩
    obtain ⟨hc, htenant⟩ := hcommon
    have hsortperm : List.Perm
        ((sortDescBy (fun x => x.score) (dedupById combined)).map (fun x => x.entry_id))
        ((dedupById combined).map (fun x => x.entry_id)) :=
      (perm_sortDescBy (fun x => x.score) (dedupById combined)).map _
    refine ⟨⟨combined, rfl, ?_⟩, ?_, ?_, ?_, htenant⟩
    · intro x hx
      rw [hc] at hx
      have hx' : x ∈ dedupById combined :=
        (mem_sortDescBy (fun x => x.score) x _).mp (List.mem_of_mem_take hx)
      exact ⟨hinv.sub x hx', fun y hy heid => hinv.maxScore x hx' y hy heid⟩
    · rw [hc]
      have hnodup : ((sortDescBy (fun x => x.score) (dedupById combined)).map
          (fun x => x.entry_id)).Nodup :=
        (hsortperm.nodup_iff).mpr hinv.keysNodup
      exact hnodup.sublist ((List.take_sublist _ _).map _)
    · rw [hc]
      exact (pairwise_sortDescBy (fun x => x.score) (dedupById combined)).sublist
        (List.take_sublist _ _)
    · rw [hc, List.length_take]
      omega

/-- Backend for the C4 witness: the database partition scores the entry 1, the
kubernetes partition scores the same entry 2; all other partitions raise. -/
def bothBackend0 : String → Option (List Hit) := fun n =>
  if n = "kb_common_database" then some [{ id := "e1", score := 1, payload := samplePayload }]
  else if n = "kb_common_kubernetes" then
    some [{ id := "e1", score := 2, payload := samplePayload }]
  else none

/-- The single deduplicated shared result of the C4 witness scenario. -/
def dedupedResult0 : SearchResult where
  entry := sampleStoredEntry
  score := 2
  entry_id := "e1"

/-- What `search_both` returns in the C4 witness scenario. -/
def bothRes0 : SearchBothResult where
  common := [dedupedResult0]
  tenant := []

/-- Witness for C4: requesting the database and kubernetes categories with one
overlapping entry keeps the higher score once and returns no tenant results
without a tenant id. -/
theorem search_both_dedup_witness :
    (∃ combined, searchPerCategory bothBackend0 [] 5 0
        [ITIssueCategory.DATABASE, ITIssueCategory.KUBERNETES] [] = .ok combined ∧
      ∀ x ∈ bothRes0.common, x ∈ combined ∧
        ∀ y ∈ combined, y.entry_id = x.entry_id → y.score ≤ x.score) ∧
    (bothRes0.common.map (fun x => x.entry_id)).Nodup ∧
    bothRes0.common.Pairwise (fun x y => y.score ≤ x.score) ∧
    bothRes0.common.length ≤ 5 ∧
    (optStrFalsy none = true → bothRes0.tenant = []) :=
  search_both_dedup bothBackend0 [] none 5 5 0 ITIssueCategory.DATABASE
    [ITIssueCategory.KUBERNETES] bothRes0 rfl

/-! ### VectorStore.get_entry (vector_store.py lines 255-281) and the
add/get round trip -/

/-- The probing loop of `get_entry` (lines 269-279): return the first
collection whose retrieve call finds the id and whose payload parses; a
retrieve failure, a missing id or a parse failure all move on to the next
collection. -/
def probeCollections (store : Store) (entry_id : String) :
    List String → Option KnowledgeBaseEntry
  | [] => none
  | name :: rest =>
    match retrievePayload store name entry_id with
    | none => probeCollections store entry_id rest
    | some payload =>
      match KnowledgeBaseEntry.from_dict payload with
      | none => probeCollections store entry_id rest
      | some e => some e

/-- `VectorStore.get_entry` (vector_store.py lines 255-281): the collection
set is resolved exactly as by an uncategorized search. -/
def VectorStore.get_entry (store : Store) (entry_id : String)
    (kb_type : KnowledgeBaseType) (tenant_id : Option String) :
    Option KnowledgeBaseEntry :=
  match search_collection_names store kb_type tenant_id none with
  | none => none
  | some names => probeCollections store entry_id names

theorem lookup_upsertPoints (name nm : String) (ps : List (String × EntryDict)) :
    ∀ st : Store, List.lookup nm (upsertPoints st name ps) =
      (List.lookup nm st).map
        (fun pts => if nm = name then ps.foldl upsertPoint pts else pts) := by
  intro st
  induction st with
  | nil => rfl
  | cons c st ih =>
    obtain ⟨k, pts⟩ := c
    simp only [upsertPoints, List.map_cons] at *
    by_cases hname : (k, pts).1 = name
    · rw [if_pos hname]
      simp only [List.lookup]
      cases hbeq : nm == k with
      | true =>
        have hnmk : nm = k := by simpa using hbeq
        simp only [Option.map]
        rw [if_pos (by rw [hnmk]; exact hname)]
      | false => exact ih
    · rw [if_neg hname]
      simp only [List.lookup]
      cases hbeq : nm == k with
      | true =>
        have hnmk : nm = k := by simpa using hbeq
        simp only [Option.map]
        rw [if_neg (by rw [hnmk]; exact hname)]
      | false => exact ih

theorem contains_eq_lookup_isSome (name : String) :
    ∀ st : Store, (collectionNames st).contains name = (List.lookup name st).isSome := by
  intro st
  induction st with
  | nil => rfl
  | cons c st ih =>
    obtain ⟨k, pts⟩ := c
    simp only [collectionNames, List.map_cons, List.contains_cons, List.lookup] at *
    cases hbeq : name == k with
    | true => simp [hbeq]
    | false => simpa [hbeq] using ih

theorem lookup_ensure_self (name : String) (store : Store) :
    List.lookup name (ensureCollection store name) = some (pointsOf store name) := by
  unfold ensureCollection
  by_cases hct : (collectionNames store).contains name
  · rw [if_pos hct]
    rw [contains_eq_lookup_isSome] at hct
    unfold pointsOf
    cases hlk : List.lookup name store with
    | none => rw [hlk] at hct; exact absurd hct (by simp)
    | some pts => rfl
  · rw [if_neg hct]
    rw [contains_eq_lookup_isSome] at hct
    unfold pointsOf
    cases hlk : List.lookup name store with
    | some pts =>
      rw [hlk] at hct
      simp at hct
    | none =>
      clear hct
      induction store with
      | nil => simp [List.lookup]
      | cons c st ih =>
        obtain ⟨k, pts⟩ := c
        simp only [List.cons_append, List.lookup] at *
        cases hbeq : name == k with
        | true => rw [hbeq] at hlk; exact Option.noConfusion hlk
        | false =>
          rw [hbeq] at hlk
          exact ih hlk

theorem lookup_ensure_other (name nm : String) (store : Store) (hne : nm ≠ name) :
    List.lookup nm (ensureCollection store name) = List.lookup nm store := by
  unfold ensureCollection
  by_cases hct : (collectionNames store).contains name
  · rw [if_pos hct]
  · rw [if_neg hct]
    clear hct
    induction store with
    | nil =>
      simp only [List.nil_append, List.lookup]
      cases hbeq : nm == name with
      | true => exact absurd (by simpa using hbeq) hne
      | false => rfl
    | cons c st ih =>
      obtain ⟨k, pts⟩ := c
      simp only [List.cons_append, List.lookup]
      cases nm == k
      · exact ih
      · rfl

theorem find?_id_append_self (eid : String) (pl : EntryDict) :
    ∀ pts : PointList, (∀ p ∈ pts, p.1 ≠ eid) →
      (pts ++ [(eid, pl)]).find? (fun q => q.1 = eid) = some (eid, pl) := by
  intro pts
  induction pts with
  | nil =>
    intro _
    simp [List.find?]
  | cons p pts ih =>
    intro hall
    obtain ⟨k, v⟩ := p
    have hk : k ≠ eid := hall (k, v) (List.mem_cons_self _ _)
    simp only [List.cons_append, List.find?]
    rw [decide_eq_false hk]
    exact ih (fun q hq => hall q (List.mem_cons_of_mem _ hq))

theorem upsertPoint_fresh (eid : String) (pl : EntryDict) (pts : PointList)
    (hfresh : ∀ p ∈ pts, p.1 ≠ eid) :
    upsertPoint pts (eid, pl) = pts ++ [(eid, pl)] := by
  unfold upsertPoint
  rw [if_neg]
  intro hany
  obtain ⟨p, hp, hpe⟩ := List.any_eq_true.mp hany
  exact hfresh p hp (by simpa using hpe)

theorem retrieve_after_upsert (store : Store) (name eid : String) (pl : EntryDict)
    (hfresh : ∀ p ∈ pointsOf store name, p.1 ≠ eid) :
    retrievePayload (upsertPoints (ensureCollection store name) name [(eid, pl)])
      name eid = some pl := by
  unfold retrievePayload
  rw [lookup_upsertPoints, lookup_ensure_self]
  have h1 : (some (pointsOf store name)).map
      (fun pts => if name = name then List.foldl upsertPoint pts [(eid, pl)] else pts) =
      some (List.foldl upsertPoint (pointsOf store name) [(eid, pl)]) := by
    simp
  rw [h1]
  dsimp only [List.foldl]
  rw [upsertPoint_fresh eid pl _ hfresh]
  rw [find?_id_append_self eid pl _ hfresh]
  rfl

theorem retrieve_other_after_upsert (store : Store) (name nm eid : String)
    (pl : EntryDict) (hne : nm ≠ name)
    (hfresh : ∀ p ∈ pointsOf store nm, p.1 ≠ eid) :
    retrievePayload (upsertPoints (ensureCollection store name) name [(eid, pl)])
      nm eid = none := by
  unfold retrievePayload
  rw [lookup_upsertPoints, lookup_ensure_other name nm store hne]
  cases hlk : List.lookup nm store with
  | none => rfl
  | some pts =>
    simp only [Option.map]
    rw [if_neg hne]
    have hpts : pts = pointsOf store nm := by
      unfold pointsOf
      rw [hlk]
      rfl
    rw [List.find?_eq_none.mpr]
    intro q hq
    simp only [decide_eq_true_eq]
    exact hfresh q (hpts ▸ hq)

theorem probeCollections_finds (store' : Store) (eid target : String)
    (pl : EntryDict) (e' : KnowledgeBaseEntry)
    (hret : retrievePayload store' target eid = some pl)
    (hfd : KnowledgeBaseEntry.from_dict pl = some e') :
    ∀ names : List String, target ∈ names →
      (∀ nm ∈ names, nm ≠ target → retrievePayload store' nm eid = none) →
      probeCollections store' eid names = some e' := by
  intro names
  induction names with
  | nil =>
    intro h
    exact absurd h (List.not_mem_nil _)
  | cons nm rest ih =>
    intro hmem hothers
    by_cases hnm : nm = target
    · subst hnm
      simp only [probeCollections, hret, hfd]
    · rw [show probeCollections store' eid (nm :: rest) = probeCollections store' eid rest by
        simp only [probeCollections, hothers nm (List.mem_cons_self _ _) hnm]]
      refine ih ?_ (fun nm' h hne => hothers nm' (List.mem_cons_of_mem _ h) hne)
      rcases List.mem_cons.mp hmem with h | h
      · exact absurd h.symm hnm
      · exact h

theorem mem_fst_of_lookup (name : String) (v : PointList) :
    ∀ st : Store, List.lookup name st = some v → name ∈ collectionNames st := by
  intro st
  induction st with
  | nil =>
    intro h
    exact Option.noConfusion h
  | cons c st ih =>
    obtain ⟨k, pts⟩ := c
    intro h
    simp only [List.lookup] at h
    cases hbeq : name == k with
    | true =>
      have hk : name = k := by simpa using hbeq
      simp [collectionNames, hk]
    | false =>
      rw [hbeq] at h
      simp only [collectionNames, List.map_cons, List.mem_cons]
      exact Or.inr (ih h)

theorem collectionNames_upsertPoints (n : String) (ps : List (String × EntryDict)) :
    ∀ st : Store, collectionNames (upsertPoints st n ps) = collectionNames st := by
  intro st
  induction st with
  | nil => rfl
  | cons c st ih =>
    simp only [upsertPoints, collectionNames, List.map_cons] at *
    by_cases hc : c.1 = n
    · rw [if_pos hc]
      exact congrArg (List.cons c.1) ih
    · rw [if_neg hc]
      exact congrArg (List.cons c.1) ih

theorem commonName_starts (cat : ITIssueCategory) :
    strStartsWith (commonCollectionName cat) "kb_common_" = true := by
  cases cat <;> decide

theorem add_entry_common_eq (store : Store) (freshId : String) (e : KnowledgeBaseEntry)
    (cat : ITIssueCategory) (hkb : e.kb_type = KnowledgeBaseType.COMMON)
    (hcat : e.category = some cat) :
    VectorStore.add_entry store freshId e =
      (upsertPoints (ensureCollection store (commonCollectionName cat))
        (commonCollectionName cat)
        [(e.id.getD freshId,
          KnowledgeBaseEntry.to_dict { e with id := some (e.id.getD freshId) })],
       Except.ok (e.id.getD freshId)) := by
  unfold VectorStore.add_entry
  dsimp only
  rw [hkb, hcat]

theorem add_entry_tenant_eq (store : Store) (freshId : String) (e : KnowledgeBaseEntry)
    (hkb : e.kb_type = KnowledgeBaseType.TENANT)
    (hten : optStrFalsy e.tenant_id = false) :
    VectorStore.add_entry store freshId e =
      (upsertPoints (ensureCollection store (tenantCollectionName (e.tenant_id.getD "")))
        (tenantCollectionName (e.tenant_id.getD ""))
        [(e.id.getD freshId,
          KnowledgeBaseEntry.to_dict { e with id := some (e.id.getD freshId) })],
       Except.ok (e.id.getD freshId)) := by
  unfold VectorStore.add_entry
  dsimp only
  rw [hkb]
  dsimp only
  rw [if_neg (by rw [hten]; exact Bool.false_ne_true)]

theorem get_entry_common_probe (S : Store) (eid : String) (tid : Option String)
    (target : String) (pl : EntryDict) (e' : KnowledgeBaseEntry)
    (hmem : target ∈ existingCommonNames S)
    (hret : retrievePayload S target eid = some pl)
    (hfd : KnowledgeBaseEntry.from_dict pl = some e')
    (hothers : ∀ nm ∈ existingCommonNames S, nm ≠ target → retrievePayload S nm eid = none) :
    VectorStore.get_entry S eid KnowledgeBaseType.COMMON tid = some e' := by
  unfold VectorStore.get_entry search_collection_names
  dsimp only
  rw [if_neg (by
    intro hE
    rw [List.isEmpty_iff] at hE
    rw [hE] at hmem
    exact absurd hmem (List.not_mem_nil _))]
  exact probeCollections_finds _ _ _ _ _ hret hfd _ hmem hothers

theorem get_entry_tenant_probe (S : Store) (eid tid : String) (pl : EntryDict)
    (e' : KnowledgeBaseEntry)
    (hret : retrievePayload S (tenantCollectionName tid) eid = some pl)
    (hfd : KnowledgeBaseEntry.from_dict pl = some e') :
    VectorStore.get_entry S eid KnowledgeBaseType.TENANT (some tid) = some e' := by
  unfold VectorStore.get_entry search_collection_names
  dsimp only
  refine probeCollections_finds _ _ _ _ _ hret hfd _ (List.mem_singleton.mpr rfl) ?_
  intro nm hnm hne
  rw [List.mem_singleton] at hnm
  exact absurd hnm hne

/-- Claim C6: for every valid entry (its tier-required field present) whose
timestamps carry real (non-empty) ISO strings, calling `add_entry` and then
`get_entry` with the id that `add_entry` returned and the same tier (and the
same tenant_id for the tenant tier) returns an entry equal in every field to
the entry as written — the assigned id included — with the stored payload
round-tripping through `to_dict` and `from_dict`. The returned id must not
already occur as a point id anywhere in the store (always true of the
freshly-generated uuids): `get_entry` probes every shared partition in order
and returns the first id match, so a pre-existing foreign point stored under
the same id could shadow the written entry. -/
theorem add_get_roundtrip (store : Store) (freshId : String) (e : KnowledgeBaseEntry)
    (store' : Store) (eid : String)
    (hvalid : (e.kb_type = KnowledgeBaseType.COMMON ∧ e.category ≠ none) ∨
      (e.kb_type = KnowledgeBaseType.TENANT ∧ optStrFalsy e.tenant_id = false))
    (hc : ∀ d ∈ e.created_at, d.iso ≠ "") (hu : ∀ d ∈ e.updated_at, d.iso ≠ "")
    (hadd : VectorStore.add_entry store freshId e = (store', Except.ok eid))
    (hfresh : ∀ name, ∀ p ∈ pointsOf store name, p.1 ≠ eid) :
    VectorStore.get_entry store' eid e.kb_type e.tenant_id =
      some { e with id := some eid } := by
  rcases hvalid with ⟨hkb, hcat⟩ | ⟨hkb, hten⟩
  · obtain ⟨cat, hcat⟩ := Option.ne_none_iff_exists'.mp hcat
    rw [add_entry_common_eq store freshId e cat hkb hcat, Prod.mk.injEq] at hadd
    obtain ⟨h1, h2⟩ := hadd
    have heid : e.id.getD freshId = eid := by injection h2
    subst heid
    subst h1
    set e' : KnowledgeBaseEntry := { e with id := some (e.id.getD freshId) } with he'
    set pl : EntryDict := KnowledgeBaseEntry.to_dict e' with hpl
    set S : Store := upsertPoints (ensureCollection store (commonCollectionName cat))
      (commonCollectionName cat) [(e.id.getD freshId, pl)] with hS
    rw [hkb]
    have hret : retrievePayload S (commonCollectionName cat) (e.id.getD freshId) =
        some pl :=
      retrieve_after_upsert store (commonCollectionName cat) (e.id.getD freshId) pl
        (hfresh (commonCollectionName cat))
    have hfd : KnowledgeBaseEntry.from_dict pl = some e' := from_dict_to_dict e' hc hu
    have hmemname : commonCollectionName cat ∈ collectionNames S := by
      rw [hS, collectionNames_upsertPoints]
      exact mem_fst_of_lookup _ _ _ (lookup_ensure_self _ store)
    have hmemex : commonCollectionName cat ∈ existingCommonNames S :=
      List.mem_filter.mpr ⟨hmemname, commonName_starts cat⟩
    exact get_entry_common_probe S (e.id.getD freshId) e.tenant_id
      (commonCollectionName cat) pl e' hmemex hret hfd
      (fun nm hnm hne =>
        retrieve_other_after_upsert store (commonCollectionName cat) nm
          (e.id.getD freshId) pl hne (hfresh nm))
  · rw [add_entry_tenant_eq store freshId e hkb hten, Prod.mk.injEq] at hadd
    obtain ⟨h1, h2⟩ := hadd
    have heid : e.id.getD freshId = eid := by injection h2
    subst heid
    subst h1
    obtain ⟨tid, htid⟩ : ∃ tid, e.tenant_id = some tid := by
      cases h : e.tenant_id with
      | none =>
        rw [h] at hten
        exact absurd hten (by simp [optStrFalsy])
      | some t => exact ⟨t, rfl⟩
    set e' : KnowledgeBaseEntry := { e with id := some (e.id.getD freshId) } with he'
    set pl : EntryDict := KnowledgeBaseEntry.to_dict e' with hpl
    set S : Store := upsertPoints
      (ensureCollection store (tenantCollectionName (e.tenant_id.getD "")))
      (tenantCollectionName (e.tenant_id.getD "")) [(e.id.getD freshId, pl)] with hS
    rw [hkb]
    have hret : retrievePayload S (tenantCollectionName (e.tenant_id.getD ""))
        (e.id.getD freshId) = some pl :=
      retrieve_after_upsert store (tenantCollectionName (e.tenant_id.getD ""))
        (e.id.getD freshId) pl (hfresh (tenantCollectionName (e.tenant_id.getD "")))
    have hfd : KnowledgeBaseEntry.from_dict pl = some e' := from_dict_to_dict e' hc hu
    rw [htid]
    refine get_entry_tenant_probe S (e.id.getD freshId) tid pl e' ?_ hfd
    rw [show tenantCollectionName tid = tenantCollectionName (e.tenant_id.getD "") by
      rw [htid]
      rfl]
    exact hret

/-- Witness for C6: adding the sample shared-tier entry to the empty store and
reading it back through `get_entry` returns it unchanged. -/
theorem add_get_roundtrip_witness :
    VectorStore.get_entry searchStore0 "e1" sampleStoredEntry.kb_type
        sampleStoredEntry.tenant_id =
      some { sampleStoredEntry with id := some "e1" } :=
  add_get_roundtrip [] "unused-uuid" sampleStoredEntry searchStore0 "e1"
    (Or.inl ⟨rfl, by decide⟩) (by decide) (by decide) rfl
    (fun name p hp => absurd hp (List.not_mem_nil p))

end TicketNinja
